import Mathlib

/-
Verification development for the content-optimizer orchestration pipeline
(src/index.tsx).  The JavaScript/TypeScript functions under test are given a
shallow embedding over `List Char` / `String`:

  * `enforceWordCount` (src/index.tsx:36-52) and the finalize-stage word gate
    (src/index.tsx:4491-4512),
  * `ContentCache` (src/index.tsx:185-203),
  * `extractJson` (src/index.tsx:230-339) together with a model of
    `JSON.parse`,
  * `callAiWithRetry` (src/index.tsx:426-493),
  * the link-integrity subsystem: `validateAndRepairInternalLinks`
    (src/index.tsx:832-909), `enforceInternalLinkQuota` (src/index.tsx:921-999),
    `processInternalLinks` (src/index.tsx:1009-1042), and
    `sanitizeBrokenPlaceholders` (src/index.tsx:1050-1066).

Modelling conventions, used throughout:
  * JavaScript strings are Lean `String` / `List Char`; `toLowerCase` is
    modelled with `Char.toLower` (ASCII-faithful; every concrete input used
    below is ASCII).
  * `String.prototype.replace` with a global regex is modelled by a
    left-to-right, leftmost-match, non-rescanning scan, one definition per
    regex appearing in the source.
  * JavaScript fractional arithmetic (the repair scores of
    `validateAndRepairInternalLinks`) is modelled in `Rat`; every concrete
    score reached in the theorems below is exact in both systems, and no
    universal theorem depends on a score's numeric value.
  * timing (`setTimeout` delays, backoff and jitter) is not modelled; the
    retry theorems are about classification and invocation counts only.
-/

namespace ContentOpt

/-- Whitespace test for the JavaScript regex class `\s` (ASCII part). -/
def jsWs (c : Char) : Bool :=
  c = ' ' || c = '\t' || c = '\n' || c = '\r' || c = '\x0b' || c = '\x0c'

/-- Lower-casing of a string, modelling `String.prototype.toLowerCase` on
ASCII input. -/
def lowerStr (s : String) : String :=
  String.mk (s.data.map Char.toLower)

/-- Decide whether `pat` occurs as a contiguous substring of the list,
modelling `String.prototype.includes`. -/
def subOccurs (pat : List Char) : List Char → Bool
  | [] => pat.isPrefixOf ([] : List Char)
  | c :: cs => pat.isPrefixOf (c :: cs) || subOccurs pat cs

/-- Count the occurrences of `pat` (scanning one position at a time). -/
def subCount (pat : List Char) : List Char → Nat
  | [] => if pat.isPrefixOf ([] : List Char) then 1 else 0
  | c :: cs => (if pat.isPrefixOf (c :: cs) then 1 else 0) + subCount pat cs

/-- Trim of leading whitespace, as in `String.prototype.trim`. -/
def jsTrimStart (cs : List Char) : List Char :=
  cs.dropWhile jsWs

/-- Full trim, as in `String.prototype.trim`. -/
def jsTrim (cs : List Char) : List Char :=
  ((cs.dropWhile jsWs).reverse.dropWhile jsWs).reverse

/-- Model of `content.replace(/\s+/g, ' ')`: every maximal whitespace run
becomes a single space.  The boolean argument records whether the previous
character was part of a whitespace run already consumed. -/
def collapseWs : Bool → List Char → List Char
  | _, [] => []
  | inRun, c :: cs =>
    if jsWs c then
      if inRun then collapseWs true cs else ' ' :: collapseWs true cs
    else c :: collapseWs false cs

theorem dropWhile_len_le (p : Char → Bool) (l : List Char) :
    (l.dropWhile p).length ≤ l.length := by
  induction l with
  | nil => simp [List.dropWhile]
  | cons c cs ih =>
    by_cases h : p c <;> simp [List.dropWhile, h] <;> omega

/-
The left-to-right regex scanners below consume at least one character per
step but recurse on computed suffixes, so they are written with an explicit
fuel argument (structural recursion, hence kernel-reducible for `decide`);
the canonical fuel is the input length, which is always sufficient, and the
fuel-exhaustion branches are unreachable at the canonical fuel.
-/

/-- Worker for `stripTags`, fuelled. -/
def stripTagsGo : Nat → List Char → List Char
  | _, [] => []
  | 0, cs => cs
  | fuel + 1, c :: cs =>
    if c = '<' then
      match cs.dropWhile (fun d => d ≠ '>') with
      | '>' :: rest => ' ' :: stripTagsGo fuel rest
      | _ => c :: stripTagsGo fuel cs
    else c :: stripTagsGo fuel cs

/-- Model of `content.replace(/<[^>]*>/g, ' ')` (src/index.tsx:37): a `<`,
a run of non-`>` characters and a closing `>` are replaced by a single
space; a `<` with no later `>` never matches. -/
def stripTags (cs : List Char) : List Char :=
  stripTagsGo cs.length cs

/-- Worker for `jsSplitWs`: accumulate the current token (reversed) and cut
at each maximal whitespace run. -/
def jsSplitWsGo : Nat → List Char → List Char → List String
  | _, acc, [] => [String.mk acc.reverse]
  | 0, acc, cs => [String.mk (acc.reverse ++ cs)]
  | fuel + 1, acc, c :: cs =>
    if jsWs c then
      String.mk acc.reverse :: jsSplitWsGo fuel [] (cs.dropWhile jsWs)
    else jsSplitWsGo fuel (c :: acc) cs

/-- Model of `String.prototype.split(/\s+/)`: maximal whitespace runs are
separators; a leading or trailing run contributes an empty token, and the
empty string yields a single empty token, exactly as in JavaScript. -/
def jsSplitWs : List Char → List String
  | [] => [String.mk []]
  | c :: cs =>
    if jsWs c then
      String.mk [] :: jsSplitWsGo cs.length [] (cs.dropWhile jsWs)
    else jsSplitWsGo cs.length [c] cs

/-- Tag-stripped, whitespace-token word count of a content string, the
computation of src/index.tsx:37-39. -/
def jsWordCount (content : String) : Nat :=
  (((jsSplitWs (jsTrim (collapseWs false (stripTags content.data)))).filter
    (fun w => w.length > 0))).length

/-- Decidable equality for `Except` results, used to evaluate the models on
concrete inputs. -/
instance exceptDecEq {ε α : Type} [DecidableEq ε] [DecidableEq α] :
    DecidableEq (Except ε α) := fun x y =>
  match x, y with
  | .ok a, .ok b =>
    if h : a = b then isTrue (by rw [h]) else isFalse (by simp [h])
  | .error a, .error b =>
    if h : a = b then isTrue (by rw [h]) else isFalse (by simp [h])
  | .ok _, .error _ => isFalse (by simp)
  | .error _, .ok _ => isFalse (by simp)

/-- Payload of the `ContentTooShortError` class (src/index.tsx:1234-1244):
message, preserved content, and measured word count. -/
structure ShortErr where
  message : String
  content : String
  wordCount : Nat
deriving DecidableEq

/-- Model of `enforceWordCount` (src/index.tsx:36-52) restricted to string
input.  The word count is computed first; the guard at line 43 fires
exactly when the string is falsy, i.e. empty; an over-maximum count only
logs a warning (a no-op here) and the count is returned. -/
def enforceWordCount (content : String) (minWords maxWords : Nat) :
    Except ShortErr Nat :=
  let wordCount := jsWordCount content
  if content = String.mk [] then
    .error ⟨"Content is undefined or not a string", String.mk [], 0⟩
  else
    let _ := minWords
    let _ := maxWords
    .ok wordCount

/-- Primitive JavaScript values, used to model the dynamically-typed
`content` argument of `enforceWordCount`. -/
inductive JsVal where
  | undef : JsVal
  | jsNull : JsVal
  | bool (b : Bool) : JsVal
  | num (n : Int) : JsVal
  | str (s : String) : JsVal
deriving DecidableEq

/-- Whether a primitive JavaScript value is a string. -/
def JsVal.isStr : JsVal → Bool
  | .str _ => true
  | _ => false

/-- Outcomes of `enforceWordCount` on a primitive JavaScript value: a
`TypeError` (no `replace` method), a thrown `ContentTooShortError`, or a
returned count. -/
inductive WordCountErr where
  | typeErr : WordCountErr
  | tooShort (e : ShortErr) : WordCountErr
deriving DecidableEq

/-- Model of `enforceWordCount` (src/index.tsx:36-52) over primitive
JavaScript values.  For `null`, `undefined`, booleans and numbers the very
first statement `content.replace(/<[^>]*>/g, ' ')` (line 37) throws a
`TypeError`, before the line-43 guard is reached. -/
def enforceWordCountJs (content : JsVal) (minWords maxWords : Nat) :
    Except WordCountErr Nat :=
  match content with
  | .str s =>
    match enforceWordCount s minWords maxWords with
    | .ok n => .ok n
    | .error e => .error (.tooShort e)
  | _ => .error .typeErr

/-- Word-count constant of src/index.tsx:161. -/
def TARGET_MIN_WORDS : Nat := 2200

/-- Word-count constant of src/index.tsx:162. -/
def TARGET_MAX_WORDS : Nat := 2800

/-- Word-count constant of src/index.tsx:163. -/
def TARGET_MIN_WORDS_PILLAR : Nat := 3500

/-- Word-count constant of src/index.tsx:164. -/
def TARGET_MAX_WORDS_PILLAR : Nat := 4500

/-- Link-quota constant of src/index.tsx:166. -/
def MIN_INTERNAL_LINKS : Nat := 8

/-- Stage minimum of src/index.tsx:4491. -/
def stageMinWords (isPillar : Bool) : Nat :=
  if isPillar then TARGET_MIN_WORDS_PILLAR else TARGET_MIN_WORDS

/-- Stage maximum of src/index.tsx:4492. -/
def stageMaxWords (isPillar : Bool) : Nat :=
  if isPillar then TARGET_MAX_WORDS_PILLAR else TARGET_MAX_WORDS

/-- Model of the finalize-stage word-count gate (src/index.tsx:4491-4512).
`enforceWordCount` measures `finalProcessedContent`; the schema markup is
then appended to the content (src/index.tsx:4508; `normalizeGeneratedContent`
passes a non-empty `content` field through unchanged when `imageDetails` is a
non-empty array, src/index.tsx:1306-1349); finally a count below the stage
minimum throws `ContentTooShortError` carrying that content and the measured
count (src/index.tsx:4510-4512). -/
def finalizeWordGate (finalProcessedContent : String) (isPillar : Bool)
    (schemaMarkup : String) : Except ShortErr Nat :=
  match enforceWordCount finalProcessedContent (stageMinWords isPillar)
      (stageMaxWords isPillar) with
  | .error e => .error e
  | .ok wordCount =>
    if wordCount < stageMinWords isPillar then
      .error ⟨"Content is too short (" ++ toString wordCount ++
        " words). Target: " ++ toString (stageMinWords isPillar) ++ "-" ++
        toString (stageMaxWords isPillar) ++ ".",
        finalProcessedContent ++ schemaMarkup, wordCount⟩
    else .ok wordCount

/-- Cache entry of `ContentCache` (src/index.tsx:186): payload plus
insertion timestamp (`Date.now()`, an integer of milliseconds). -/
structure CacheEntry (α : Type) where
  data : α
  timestamp : Int
deriving DecidableEq

/-- The private `Map` of `ContentCache` (src/index.tsx:185-203), as an
association list; `Map.get` returns the first (most recently set) binding. -/
structure ContentCache (α : Type) where
  entries : List (String × CacheEntry α)
deriving DecidableEq

/-- TTL constant of src/index.tsx:187 (one hour in milliseconds). -/
def cacheTTL : Int := 3600000

/-- Model of `ContentCache.set` (src/index.tsx:189-191): `Map.set` replaces
any existing binding for the key. -/
def cacheSet (c : ContentCache α) (key : String) (v : α) (now : Int) :
    ContentCache α :=
  ⟨(key, ⟨v, now⟩) :: c.entries.filter (fun kv => kv.1 ≠ key)⟩

/-- Model of `Map.get` inside `ContentCache.get` (src/index.tsx:194). -/
def cacheLookup (c : ContentCache α) (key : String) :
    Option (CacheEntry α) :=
  (c.entries.find? (fun kv => kv.1 = key)).map (fun kv => kv.2)

/-- Model of `ContentCache.get` (src/index.tsx:193-201): the stored value is
returned only while `now - timestamp < TTL`; an expired entry is reported as
a miss (`null`) but is not deleted — `get` does not mutate the map. -/
def cacheGet (c : ContentCache α) (key : String) (now : Int) : Option α :=
  match cacheLookup c key with
  | some item =>
    if now - item.timestamp < cacheTTL then some item.data else none
  | none => none

/-- Error object thrown by an AI SDK call, as inspected by
`callAiWithRetry` (src/index.tsx:426-493): an optional HTTP status and a
message. -/
structure AiErr where
  status : Option Nat
  message : String
deriving DecidableEq

/-- Numeric value of a decimal digit character. -/
def digitVal (c : Char) : Nat := c.toNat - '0'.toNat

/-- Model of `errorMessage.match(/\[(\d{3})[^\]]*\]/)` followed by
`parseInt(match[1], 10)` (src/index.tsx:435-436): the first `[` followed by
exactly three digits and, later, a closing `]` yields those three digits as
a number. -/
def statusFromMsg : List Char → Option Nat
  | [] => none
  | '[' :: d1 :: d2 :: d3 :: rest =>
    if d1.isDigit && d2.isDigit && d3.isDigit then
      if rest.contains ']' then
        some (100 * digitVal d1 + 10 * digitVal d2 + digitVal d3)
      else statusFromMsg (d1 :: d2 :: d3 :: rest)
    else statusFromMsg (d1 :: d2 :: d3 :: rest)
  | _ :: rest => statusFromMsg rest

/-- Model of the `statusCode` computation (src/index.tsx:436):
`error.status || (statusMatch ? parseInt(statusMatch[1], 10) : null)`;
a missing or zero (falsy) status falls back to the message regex. -/
def statusCodeOf (e : AiErr) : Option Nat :=
  match e.status with
  | some s => if s ≠ 0 then some s else statusFromMsg (lowerStr e.message).data
  | none => statusFromMsg (lowerStr e.message).data

/-- Classification `isNonRetriableClientError` (src/index.tsx:438). -/
def isNonRetriableClient (e : AiErr) : Bool :=
  match statusCodeOf e with
  | some s => decide (400 ≤ s) && decide (s < 500) && decide (s ≠ 429)
  | none => false

/-- Classification `isContextLengthError` (src/index.tsx:439). -/
def isCtxLenErr (e : AiErr) : Bool :=
  subOccurs ("context length").data (lowerStr e.message).data ||
  subOccurs ("token limit").data (lowerStr e.message).data

/-- Classification `isInvalidApiKeyError` (src/index.tsx:440). -/
def isBadKeyErr (e : AiErr) : Bool :=
  subOccurs ("api key not valid").data (lowerStr e.message).data

/-- Loop body of `callAiWithRetry` (src/index.tsx:427-491).  `outcomes n` is
the result of the `n`-th invocation of `apiCall`; the result is paired with
the number of invocations performed.  Backoff delays are not modelled (they
do not affect the returned value or the invocation count). -/
def callAiGo (outcomes : Nat → Except AiErr α) :
    Nat → Nat → Except AiErr α × Nat
  | attempt, 0 => (.error ⟨none, "AI call failed after all retries."⟩, attempt)
  | attempt, remaining + 1 =>
    match outcomes attempt with
    | .ok a => (.ok a, attempt + 1)
    | .error e =>
      if isNonRetriableClient e || isCtxLenErr e || isBadKeyErr e then
        (.error e, attempt + 1)
      else if remaining = 0 then
        (.error e, attempt + 1)
      else
        callAiGo outcomes (attempt + 1) remaining

/-- Model of `callAiWithRetry` (src/index.tsx:426-493): run up to
`maxRetries` attempts, failing fast on non-retriable classifications. -/
def callAiWithRetry (outcomes : Nat → Except AiErr α) (maxRetries : Nat) :
    Except AiErr α × Nat :=
  callAiGo outcomes 0 maxRetries

/-- A sitemap page as consumed by the link subsystem: `id` (the full URL),
`slug` and `title`. -/
structure Page where
  id : String
  slug : String
  title : String
deriving DecidableEq

/-- Literal head of every internal-link placeholder. -/
def phLit : List Char := ("[INTERNAL_LINK").data

/-- Literal for the `slug` attribute opener. -/
def slugAttrLit : List Char := ("slug=\"").data

/-- Literal for the `text` attribute opener. -/
def textAttrLit : List Char := ("text=\"").data

/-- Consume an exact literal prefix, or fail. -/
def dropLit (lit cs : List Char) : Option (List Char) :=
  if lit.isPrefixOf cs then some (cs.drop lit.length) else none

theorem dropLit_length {lit cs r : List Char} (h : dropLit lit cs = some r) :
    r.length + lit.length = cs.length := by
  unfold dropLit at h
  split at h
  · next hp =>
    have hle : lit.length ≤ cs.length :=
      (List.isPrefixOf_iff_prefix.mp hp).length_le
    simp only [Option.some.injEq] at h
    subst h
    simp [List.length_drop]
    omega
  · exact absurd h (by simp)

/-- Consume the `\s+` of the placeholder regex: at least one whitespace
character, greedily. -/
def eatWs1 (cs : List Char) : Option (List Char) :=
  if cs.takeWhile jsWs = [] then none else some (cs.dropWhile jsWs)

theorem eatWs1_length {cs r : List Char} (h : eatWs1 cs = some r) :
    r.length ≤ cs.length := by
  unfold eatWs1 at h
  split at h
  · exact absurd h (by simp)
  · simp only [Option.some.injEq] at h
    subst h
    exact dropWhile_len_le _ cs

/-- Consume an attribute value `([^"]+)"`: a non-empty run of non-quote
characters closed by a quote; returns the capture and the remainder after
the closing quote. -/
def takeAttr (cs : List Char) : Option (List Char × List Char) :=
  match cs.takeWhile (fun d => d ≠ '"'), cs.dropWhile (fun d => d ≠ '"') with
  | cap :: caps, '"' :: rest => some (cap :: caps, rest)
  | _, _ => none

theorem takeAttr_length {cs cap rest : List Char}
    (h : takeAttr cs = some (cap, rest)) : rest.length < cs.length := by
  unfold takeAttr at h
  split at h
  · next cap' caps' rest' heq1 heq2 =>
    have l1 : (cs.dropWhile (fun d => d ≠ '"')).length ≤ cs.length :=
      dropWhile_len_le _ cs
    rw [heq2] at l1
    simp only [Option.some.injEq, Prod.mk.injEq] at h
    obtain ⟨-, h⟩ := h
    subst h
    simp at l1
    omega
  · exact absurd h (by simp)

/-- Final step of the placeholder match: after the closing quote of the
text attribute the regex requires `]`. -/
def closeBracket (slug txt : List Char) :
    List Char → Option (List Char × List Char × List Char)
  | ']' :: cs9 => some (slug, txt, cs9)
  | _ => none

theorem closeBracket_length {slug txt cs8 s t rest : List Char}
    (h : closeBracket slug txt cs8 = some (s, t, rest)) :
    rest.length < cs8.length := by
  unfold closeBracket at h
  split at h
  · simp only [Option.some.injEq, Prod.mk.injEq] at h
    obtain ⟨-, -, h⟩ := h
    subst h
    simp
  · exact absurd h (by simp)

/-- Attempt to match the placeholder regex
`\[INTERNAL_LINK\s+slug="([^"]+)"\s+text="([^"]+)"\]` (src/index.tsx:838,
924, 1018) at the head of the list; on success return the two captures and
the remainder after the match. -/
def matchPHAt (cs : List Char) : Option (List Char × List Char × List Char) :=
  (dropLit phLit cs).bind fun cs1 =>
  (eatWs1 cs1).bind fun cs2 =>
  (dropLit slugAttrLit cs2).bind fun cs3 =>
  (takeAttr cs3).bind fun sp =>
  (eatWs1 sp.2).bind fun cs6 =>
  (dropLit textAttrLit cs6).bind fun cs7 =>
  (takeAttr cs7).bind fun tp =>
  closeBracket sp.1 tp.1 tp.2

theorem matchPHAt_length {cs slug txt rest : List Char}
    (h : matchPHAt cs = some (slug, txt, rest)) : rest.length < cs.length := by
  unfold matchPHAt at h
  cases h1 : dropLit phLit cs with
  | none => rw [h1] at h; exact absurd h (by simp)
  | some cs1 =>
  rw [h1] at h
  simp only [Option.some_bind] at h
  have l1 := dropLit_length h1
  cases h2 : eatWs1 cs1 with
  | none => rw [h2] at h; exact absurd h (by simp)
  | some cs2 =>
  rw [h2] at h
  simp only [Option.some_bind] at h
  have l2 := eatWs1_length h2
  cases h3 : dropLit slugAttrLit cs2 with
  | none => rw [h3] at h; exact absurd h (by simp)
  | some cs3 =>
  rw [h3] at h
  simp only [Option.some_bind] at h
  have l3 := dropLit_length h3
  cases h5 : takeAttr cs3 with
  | none => rw [h5] at h; exact absurd h (by simp)
  | some sp =>
  rw [h5] at h
  simp only [Option.some_bind] at h
  obtain ⟨slug', cs5⟩ := sp
  have l5 := takeAttr_length h5
  cases h6 : eatWs1 cs5 with
  | none => rw [h6] at h; exact absurd h (by simp)
  | some cs6 =>
  rw [h6] at h
  simp only [Option.some_bind] at h
  have l6 := eatWs1_length h6
  cases h7 : dropLit textAttrLit cs6 with
  | none => rw [h7] at h; exact absurd h (by simp)
  | some cs7 =>
  rw [h7] at h
  simp only [Option.some_bind] at h
  have l7 := dropLit_length h7
  cases h8 : takeAttr cs7 with
  | none => rw [h8] at h; exact absurd h (by simp)
  | some tp =>
  rw [h8] at h
  simp only [Option.some_bind] at h
  obtain ⟨txt', cs8⟩ := tp
  have l8 := takeAttr_length h8
  have l9 : rest.length < cs8.length := closeBracket_length h
  have e1 : phLit.length = 14 := by decide
  have e2 : slugAttrLit.length = 6 := by decide
  have e3 : textAttrLit.length = 6 := by decide
  rw [e1] at l1
  rw [e2] at l3
  rw [e3] at l7
  omega

/-- The exact placeholder text `[INTERNAL_LINK slug="S" text="T"]`, the
shape forged by src/index.tsx:903 and src/index.tsx:978. -/
def phTokenChars (slug txt : List Char) : List Char :=
  phLit ++ (' ' :: slugAttrLit) ++ slug ++ ('"' :: ' ' :: textAttrLit) ++
    txt ++ ['"', ']']

/-- Worker for `replacePH`, fuelled. -/
def replacePHGo (f : List Char → List Char → List Char) :
    Nat → List Char → List Char
  | _, [] => []
  | 0, cs => cs
  | fuel + 1, c :: cs =>
    match matchPHAt (c :: cs) with
    | some (slug, txt, rest) => f slug txt ++ replacePHGo f fuel rest
    | none => c :: replacePHGo f fuel cs

/-- Global, leftmost, non-rescanning `String.prototype.replace` over the
placeholder regex, with callback `f slug text`. -/
def replacePH (f : List Char → List Char → List Char) (cs : List Char) :
    List Char :=
  replacePHGo f cs.length cs

/-- Deduplication keeping the first occurrence of each element, modelling
iteration over a JavaScript `Set` built from a list. -/
def dedupFirst : List String → List String
  | [] => []
  | x :: xs => x :: (dedupFirst xs).filter (fun y => y ≠ x)

/-- Exact fraction arithmetic for the repair scores, with no normalization
(so every operation is plain integer arithmetic and kernel-reducible).
Every denominator arising in `repairFold` is positive, and under that
invariant `Score.gtb` decides the true rational order.  This models the
JavaScript floating-point score exactly on every input used in this file,
and no universal theorem below depends on a score's numeric value. -/
structure Score where
  num : Int
  den : Int
deriving DecidableEq

/-- Embed an integer score. -/
def Score.ofInt (n : Int) : Score := ⟨n, 1⟩

/-- Sum of two scores. -/
def Score.add (a b : Score) : Score :=
  ⟨a.num * b.den + b.num * a.den, a.den * b.den⟩

/-- Quotient of two scores. -/
def Score.dvd (a b : Score) : Score := ⟨a.num * b.den, a.den * b.num⟩

/-- Product of two scores. -/
def Score.mul (a b : Score) : Score := ⟨a.num * b.num, a.den * b.den⟩

/-- Strict order on scores (valid for positive denominators). -/
def Score.gtb (a b : Score) : Bool := a.num * b.den > b.num * a.den

/-- The per-page score of the repair loop (src/index.tsx:858-891):
exact-title (100), anchor-in-title (60), title-in-anchor (50), plus the
averaged overlap percentages
`((inter/anchor)*100 + (inter/title)*100) / 2` when the intersection is
non-empty. -/
def pageScore (anchorLower : String) (anchorSet : List String)
    (titleLower : String) (titleSet : List String) : Score :=
  let base : Score :=
    (Score.ofInt (if titleLower = anchorLower then 100 else 0)).add
      ((Score.ofInt (if subOccurs anchorLower.data titleLower.data then 60 else 0)).add
        (Score.ofInt (if subOccurs titleLower.data anchorLower.data then 50 else 0)))
  let inter := dedupFirst (anchorSet.filter (fun w => titleSet.contains w))
  base.add
    (if inter.length > 0 then
      ((((Score.ofInt inter.length).dvd (Score.ofInt anchorSet.length)).mul
            (Score.ofInt 100)).add
          (((Score.ofInt inter.length).dvd (Score.ofInt titleSet.length)).mul
            (Score.ofInt 100))).dvd
        (Score.ofInt 2)
    else Score.ofInt 0)

/-- The words of a page title that survive the length filter of
src/index.tsx:878. -/
def titleWordsOf (page : Page) : List String :=
  (jsSplitWs (lowerStr page.title).data).filter (fun w => w.length > 2)

/-- The score a page receives against the anchor (src/index.tsx:858-891). -/
def pageScoreOf (anchorLower : String) (anchorSet : List String)
    (page : Page) : Score :=
  pageScore anchorLower anchorSet (lowerStr page.title)
    (dedupFirst (titleWordsOf page))

/-- The page-scoring loop of `validateAndRepairInternalLinks`
(src/index.tsx:855-897), as a fold with accumulator
`(bestMatch, highestScore)` starting from `(null, -1)`.  Pages with a falsy
slug or title, or with no title words above two characters, are skipped
(`continue`). -/
def repairFold (anchorLower : String) (anchorSet : List String) :
    Option Page × Score → List Page → Option Page × Score
  | acc, [] => acc
  | acc, page :: rest =>
    if page.slug = String.mk [] || page.title = String.mk [] then
      repairFold anchorLower anchorSet acc rest
    else if titleWordsOf page = [] then
      repairFold anchorLower anchorSet acc rest
    else if (pageScoreOf anchorLower anchorSet page).gtb acc.2 then
      repairFold anchorLower anchorSet
        (some page, pageScoreOf anchorLower anchorSet page) rest
    else repairFold anchorLower anchorSet acc rest

/-- Model of `text.replace(/"/g, '&quot;')` (src/index.tsx:902, 1034). -/
def jsReplaceQuot : List Char → List Char
  | [] => []
  | c :: cs =>
    if c = '"' then ("&quot;").data ++ jsReplaceQuot cs else c :: jsReplaceQuot cs

/-- Membership in the `pagesBySlug` map of `validateAndRepairInternalLinks`
(src/index.tsx:837), which is built from every page, with no filtering. -/
def pagesHasSlug (pages : List Page) (slug : String) : Bool :=
  pages.any (fun p => p.slug = slug)

/-- The replacement callback of `validateAndRepairInternalLinks`
(src/index.tsx:840-908): keep placeholders whose slug is known; otherwise
forge a link to the best-scoring page above 50 points, or fall back to the
plain anchor text. -/
def repairPH (pages : List Page) (slug txt : List Char) : List Char :=
  if pagesHasSlug pages (String.mk slug) then phTokenChars slug txt
  else
    let anchorLower := lowerStr (String.mk txt)
    let anchorSet :=
      dedupFirst ((jsSplitWs anchorLower.data).filter (fun w => w.length > 2))
    let best := repairFold anchorLower anchorSet (none, Score.ofInt (-1)) pages
    match best.1 with
    | some p =>
      if best.2.gtb (Score.ofInt 50) then phTokenChars p.slug.data (jsReplaceQuot txt)
      else txt
    | none => txt

/-- Model of `validateAndRepairInternalLinks` (src/index.tsx:832-909),
including the falsy-content / empty-page-list guard at line 833. -/
def validateAndRepairInternalLinks (content : String)
    (availablePages : List Page) : String :=
  if content = String.mk [] || availablePages.isEmpty then content
  else String.mk (replacePH (repairPH availablePages) content.data)

/-- UTM query string produced by the three `searchParams.set` calls of
src/index.tsx:1028-1030. -/
def utmSuffix : String :=
  "?utm_source=wp-content-optimizer&utm_medium=internal-link&utm_campaign=content-hub-automation"

/-- Modelled from the WHATWG URL API: for an absolute URL with no existing
query or fragment, `new URL(id)` plus the `searchParams.set` calls of
src/index.tsx:1027-1031 serializes to the original string with the UTM
query appended. -/
def appendUtm (id : String) : String := id ++ utmSuffix

/-- The `pagesBySlug` map of `processInternalLinks` (src/index.tsx:1015):
built from pages with truthy slugs; on duplicate slugs the later page wins,
as with `new Map`. -/
def findPageBySlug (pages : List Page) (slug : String) : Option Page :=
  ((pages.filter (fun p => p.slug ≠ String.mk [])).reverse).find?
    (fun p => p.slug = slug)

/-- The replacement callback of `processInternalLinks`
(src/index.tsx:1020-1041): resolve a known slug to an `<a>` tag with UTM
parameters, otherwise degrade to the plain anchor text. -/
def resolvePH (pages : List Page) (slug txt : List Char) : List Char :=
  match findPageBySlug pages (String.mk slug) with
  | some p =>
    if p.id ≠ String.mk [] then
      ("<a href=\"").data ++ (appendUtm p.id).data ++
        ('"' :: '>' :: jsReplaceQuot txt) ++ ("</a>").data
    else txt
  | none => txt

/-- Model of `processInternalLinks` (src/index.tsx:1009-1042), including the
guard at line 1010. -/
def processInternalLinks (content : String) (availablePages : List Page) :
    String :=
  if content = String.mk [] || availablePages.isEmpty then content
  else String.mk (replacePH (resolvePH availablePages) content.data)

/-- Attempt to match the sanitizer regex `\[INTERNAL_LINK[^\]]*\]`
(src/index.tsx:1051) at the head of the list; on success return the whole
match and the remainder. -/
def matchBrkAt (cs : List Char) : Option (List Char × List Char) :=
  match dropLit phLit cs with
  | none => none
  | some cs1 =>
    match cs1.dropWhile (fun d => d ≠ ']') with
    | ']' :: rest =>
      some (phLit ++ cs1.takeWhile (fun d => d ≠ ']') ++ [']'], rest)
    | _ => none

theorem matchBrkAt_length {cs m rest : List Char}
    (h : matchBrkAt cs = some (m, rest)) : rest.length < cs.length := by
  unfold matchBrkAt at h
  split at h
  · exact absurd h (by simp)
  · next cs1 h1 =>
    have l1 := dropLit_length h1
    split at h
    · next rest' h2 =>
      have l2 : (cs1.dropWhile (fun d => d ≠ ']')).length ≤ cs1.length :=
        dropWhile_len_le _ cs1
      rw [h2] at l2
      simp only [Option.some.injEq, Prod.mk.injEq] at h
      obtain ⟨-, h⟩ := h
      subst h
      simp [phLit] at l1 l2 ⊢
      omega
    · exact absurd h (by simp)

/-- The first capture of `/slug="([^"]+)"/` or `/text="([^"]+)"/`
(src/index.tsx:1053-1054) within a match string: a left-to-right scan, one
position at a time, for the attribute literal followed by a non-empty,
quote-terminated run. -/
def firstAttrCapture (attr : List Char) : List Char → Option (List Char)
  | [] => none
  | c :: cs =>
    match dropLit attr (c :: cs) with
    | some r =>
      match r.takeWhile (fun d => d ≠ '"'), r.dropWhile (fun d => d ≠ '"') with
      | cap :: caps, '"' :: _ => some (cap :: caps)
      | _, _ => firstAttrCapture attr cs
    | none => firstAttrCapture attr cs

/-- The replacement callback of `sanitizeBrokenPlaceholders`
(src/index.tsx:1052-1064): keep a match with non-empty slug and text
attributes, otherwise keep only the text capture when present. -/
def sanitizeCallback (m : List Char) : List Char :=
  match firstAttrCapture slugAttrLit m, firstAttrCapture textAttrLit m with
  | some _, some _ => m
  | _, some txt => txt
  | _, none => []

/-- Worker for the sanitizer replace, fuelled. -/
def replaceBrkGo : Nat → List Char → List Char
  | _, [] => []
  | 0, cs => cs
  | fuel + 1, c :: cs =>
    match matchBrkAt (c :: cs) with
    | some (m, rest) => sanitizeCallback m ++ replaceBrkGo fuel rest
    | none => c :: replaceBrkGo fuel cs

/-- Global replace over the sanitizer regex. -/
def replaceBrk (cs : List Char) : List Char :=
  replaceBrkGo cs.length cs

/-- Model of `sanitizeBrokenPlaceholders` (src/index.tsx:1050-1066). -/
def sanitizeBrokenPlaceholders (content : String) : String :=
  String.mk (replaceBrk content.data)

/-- Worker for `phMatchCount`, fuelled. -/
def phMatchCountGo : Nat → List Char → Nat
  | _, [] => 0
  | 0, _ => 0
  | fuel + 1, c :: cs =>
    match matchPHAt (c :: cs) with
    | some (_, _, rest) => 1 + phMatchCountGo fuel rest
    | none => phMatchCountGo fuel cs

/-- Number of matches of the group-less placeholder regex of
`enforceInternalLinkQuota` (src/index.tsx:924); its matched extents coincide
with those of `matchPHAt`. -/
def phMatchCount (cs : List Char) : Nat :=
  phMatchCountGo cs.length cs

/-- A candidate page of `enforceInternalLinkQuota` (src/index.tsx:938-954):
the spread page together with its computed `searchTerms` (only `slug` and
`searchTerms` are consulted by the injection loop). -/
structure Candidate where
  slug : String
  searchTerms : List String
deriving DecidableEq

/-- Stable insertion into a list sorted by decreasing string length;
among equal lengths the inserted element goes first, matching the stable
`Array.prototype.sort` with comparator `(a, b) => b.length - a.length`. -/
def insertByLen (x : String) : List String → List String
  | [] => [x]
  | y :: ys => if y.length ≤ x.length then x :: y :: ys else y :: insertByLen x ys

/-- Stable sort by decreasing string length. -/
def sortByLenDesc : List String → List String
  | [] => []
  | x :: xs => insertByLen x (sortByLenDesc xs)

/-- Worker for `jsSplitSpace`. -/
def splitSpaceGo (acc : List Char) : List Char → List String
  | [] => [String.mk acc.reverse]
  | c :: cs =>
    if c = ' ' then String.mk acc.reverse :: splitSpaceGo [] cs
    else splitSpaceGo (c :: acc) cs

/-- Model of `String.prototype.split(' ')` (single-space separator, empty
tokens preserved, the empty string yielding one empty token). -/
def jsSplitSpace (s : String) : List String :=
  splitSpaceGo [] s.data

/-- The `searchTerms` computation of src/index.tsx:943-950: full title,
then the all-but-last-word and all-but-first-word variants, restricted to
first occurrences of length above 10, sorted longest first. -/
def buildSearchTerms (title : String) : List String :=
  let words := jsSplitSpace title
  let t1 := if words.length > 4 then
    [String.intercalate (" ") words.dropLast] else []
  let t2 := if words.length > 3 then
    [String.intercalate (" ") (words.drop 1)] else []
  sortByLenDesc ((dedupFirst (title :: (t1 ++ t2))).filter
    (fun v => v.length > 10))

/-- Character class of the lookbehind `(?<=[>\s\n\t(])`
(src/index.tsx:969). -/
def preBoundary (c : Char) : Bool := c = '>' || jsWs c || c = '('

/-- Character class of the lookahead `(?=[<\s\n\t.,!?)])`
(src/index.tsx:969). -/
def postBoundary (c : Char) : Bool :=
  c = '<' || jsWs c || c = '.' || c = ',' || c = '!' || c = '?' || c = ')'

/-- Case-insensitive literal prefix match (the escaped search term under the
`i` flag); returns the original-case slice and the remainder. -/
def ciPrefixSplit (term cs : List Char) :
    Option (List Char × List Char) :=
  if (term.map Char.toLower).isPrefixOf (cs.map Char.toLower) then
    some (cs.take term.length, cs.drop term.length)
  else none

/-- Scan for the first occurrence of `term` with the required lookbehind and
lookahead boundaries (src/index.tsx:969-984); on success replace just that
occurrence with a forged placeholder for `slug` (the callback replaces only
the first valid occurrence and returns later matches unchanged). -/
def searchInject (term : List Char) (slug : String) (prev : Char) :
    List Char → Option (List Char)
  | [] => none
  | c :: rest =>
    if preBoundary prev then
      match ciPrefixSplit term (c :: rest) with
      | some (actual, after) =>
        match after with
        | a :: _ =>
          if postBoundary a then
            some (phTokenChars slug.data actual ++ after)
          else (searchInject term slug c rest).map (fun out => c :: out)
        | [] => (searchInject term slug c rest).map (fun out => c :: out)
      | none => (searchInject term slug c rest).map (fun out => c :: out)
    else (searchInject term slug c rest).map (fun out => c :: out)

/-- Top-level search: the lookbehind requires a preceding character, so a
match can never start at position 0. -/
def searchReplaceFirst (term : List Char) (slug : String) :
    List Char → Option (List Char)
  | [] => none
  | c :: cs => (searchInject term slug c cs).map (fun out => c :: out)

/-- The inner term loop of src/index.tsx:964-991: try each search term in
order, stopping at the first that places a link. -/
def tryTerms (slug : String) (content : List Char) :
    List String → Option (List Char)
  | [] => none
  | term :: rest =>
    match searchReplaceFirst term.data slug content with
    | some nc => some nc
    | none => tryTerms slug content rest

/-- The candidate loop of src/index.tsx:959-992, carrying the deficit and
the set of slugs newly linked in this run. -/
def quotaLoop : List Candidate → Int → List String → List Char → List Char
  | [], _, _, content => content
  | cand :: rest, deficit, newly, content =>
    if deficit ≤ 0 then content
    else if newly.contains cand.slug then quotaLoop rest deficit newly content
    else
      match tryTerms cand.slug content cand.searchTerms with
      | some nc => quotaLoop rest (deficit - 1) (cand.slug :: newly) nc
      | none => quotaLoop rest deficit newly content

/-- Model of `enforceInternalLinkQuota` (src/index.tsx:921-999).  The
placeholder regex at line 924 has no capture groups, so every
`match => match[1]` at line 926 evaluates to `undefined`; the resulting
`linkedSlugs` set is modelled as a list of `none`s. -/
def enforceInternalLinkQuota (content : String) (availablePages : List Page)
    (primaryKeyword : String) (minLinks : Nat) : String :=
  if availablePages.isEmpty then content else
  let existingCount := phMatchCount content.data
  let linkedSlugs : List (Option String) := List.replicate existingCount none
  let deficit : Int := (minLinks : Int) - (existingCount : Int)
  if deficit ≤ 0 then content else
  let candidates :=
    ((availablePages.filter (fun p =>
        p.slug ≠ String.mk [] && p.title ≠ String.mk [] &&
        !(linkedSlugs.contains (some p.slug)) &&
        decide ((jsSplitSpace p.title).length > 2))).map
      (fun p => ({ slug := p.slug,
                   searchTerms := buildSearchTerms p.title } : Candidate))).filter
      (fun c => !c.searchTerms.isEmpty)
  let _ := primaryKeyword
  String.mk (quotaLoop candidates deficit [] content.data)

/-
Model of `JSON.parse` (RFC 8259 grammar) and of `extractJson`
(src/index.tsx:230-339).
-/

/-- JSON insignificant whitespace. -/
def isJsonWs (c : Char) : Bool :=
  c = ' ' || c = '\t' || c = '\n' || c = '\r'

/-- Skip JSON whitespace. -/
def skipJsonWs (cs : List Char) : List Char := cs.dropWhile isJsonWs

/-- Hexadecimal digit test for `\uXXXX` escapes. -/
def jsonHex (c : Char) : Bool :=
  c.isDigit || ('a' ≤ c && c ≤ 'f') || ('A' ≤ c && c ≤ 'F')

/-- A parsed JSON value.  String and number payloads keep the raw source
characters (undecoded escapes, unevaluated numeral): the theorems below
never compare two differently-written tokens. -/
inductive Json where
  | null : Json
  | bool (b : Bool) : Json
  | num (tok : String) : Json
  | str (raw : String) : Json
  | arr (xs : List Json) : Json
  | obj (kvs : List (String × Json)) : Json

/-- The simple JSON string escapes. -/
def simpleEsc (c : Char) : Bool :=
  c = '"' || c = '\\' || c = '/' || c = 'b' || c = 'f' || c = 'n' ||
  c = 'r' || c = 't'

/-- Worker for `parseStrRest`, fuelled. -/
def parseStrRestGo : Nat → List Char → Option (List Char × List Char)
  | 0, _ => none
  | _ + 1, [] => none
  | fuel + 1, c :: rest =>
    if c = '"' then some ([], rest)
    else if c = '\\' then
      match rest with
      | [] => none
      | e :: rest1 =>
        if simpleEsc e then
          (parseStrRestGo fuel rest1).map (fun p => ('\\' :: e :: p.1, p.2))
        else if e = 'u' then
          match rest1 with
          | h1 :: h2 :: h3 :: h4 :: rest2 =>
            if jsonHex h1 && jsonHex h2 && jsonHex h3 && jsonHex h4 then
              (parseStrRestGo fuel rest2).map
                (fun p => ('\\' :: 'u' :: h1 :: h2 :: h3 :: h4 :: p.1, p.2))
            else none
          | _ => none
        else none
    else if c.toNat ≥ 32 then
      (parseStrRestGo fuel rest).map (fun p => (c :: p.1, p.2))
    else none

/-- Parse the remainder of a JSON string literal (the opening quote already
consumed): unescaped characters are at least 0x20 and not `"` or `\`;
escapes are the eight simple ones and `\uXXXX`.  Returns the raw content
and the remainder after the closing quote. -/
def parseStrRest (cs : List Char) : Option (List Char × List Char) :=
  parseStrRestGo cs.length cs

/-- Expect one specific character at the head. -/
def expectChar (a : Char) : List Char → Option (List Char)
  | [] => none
  | c :: rest => if c = a then some rest else none

theorem expectChar_some {a : Char} {cs rest : List Char}
    (h : expectChar a cs = some rest) : cs = a :: rest := by
  cases cs with
  | nil => exact absurd h (by simp [expectChar])
  | cons c cs2 =>
    by_cases hc : c = a
    · simp only [expectChar, hc, if_true, Option.some.injEq] at h
      rw [hc, h]
    · simp [expectChar, hc] at h

/-- Optional minus sign of a JSON number. -/
def parseSign : List Char → List Char × List Char
  | [] => ([], [])
  | c :: r => if c = '-' then (['-'], r) else ([], c :: r)

/-- Integer part of a JSON number: `0` alone, or a nonzero digit followed
by digits. -/
def parseIntPart : List Char → Option (List Char × List Char)
  | [] => none
  | c :: r =>
    if c = '0' then some (['0'], r)
    else if c.isDigit then
      some (c :: r.takeWhile Char.isDigit, r.dropWhile Char.isDigit)
    else none

/-- Optional fraction part: `.` followed by at least one digit. -/
def parseFrac : List Char → Option (List Char × List Char)
  | [] => some ([], [])
  | c :: r =>
    if c = '.' then
      match r.takeWhile Char.isDigit with
      | [] => none
      | d :: ds => some ('.' :: d :: ds, r.dropWhile Char.isDigit)
    else some ([], c :: r)

/-- Optional exponent part: `e` or `E`, an optional sign, and at least one
digit. -/
def parseExp : List Char → Option (List Char × List Char)
  | [] => some ([], [])
  | c :: r =>
    if c = 'e' || c = 'E' then
      match r with
      | [] => none
      | s :: r2 =>
        if s = '+' || s = '-' then
          match r2.takeWhile Char.isDigit with
          | [] => none
          | d :: ds => some (c :: s :: d :: ds, r2.dropWhile Char.isDigit)
        else
          match r.takeWhile Char.isDigit with
          | [] => none
          | d :: ds => some (c :: d :: ds, r.dropWhile Char.isDigit)
    else some ([], c :: r)

/-- A JSON number token (maximal munch), returned as raw characters. -/
def parseNum (cs : List Char) : Option (List Char × List Char) :=
  match parseIntPart (parseSign cs).2 with
  | none => none
  | some (ip, cs2) =>
    match parseFrac cs2 with
    | none => none
    | some (fp, cs3) =>
      match parseExp cs3 with
      | none => none
      | some (ep, cs4) => some ((parseSign cs).1 ++ ip ++ fp ++ ep, cs4)

mutual

/-- Parse a JSON value at the head of the input (no leading whitespace).
The fuel argument only bounds recursion depth; `length + 1` fuel is always
sufficient since every recursive call consumes input. -/
def parseVal : Nat → List Char → Option (Json × List Char)
  | 0, _ => none
  | fuel + 1, cs =>
    match cs with
    | [] => none
    | c :: rest =>
      if c = '{' then
        match expectChar '}' (skipJsonWs rest) with
        | some rest2 => some (.obj [], rest2)
        | none =>
          match parseMembers fuel (skipJsonWs rest) with
          | some (kvs, rest3) =>
            match expectChar '}' rest3 with
            | some rest4 => some (.obj kvs, rest4)
            | none => none
          | none => none
      else if c = '[' then
        match expectChar ']' (skipJsonWs rest) with
        | some rest2 => some (.arr [], rest2)
        | none =>
          match parseElems fuel (skipJsonWs rest) with
          | some (vs, rest3) =>
            match expectChar ']' rest3 with
            | some rest4 => some (.arr vs, rest4)
            | none => none
          | none => none
      else if c = '"' then
        match parseStrRest rest with
        | some (raw, rest2) => some (.str (String.mk raw), rest2)
        | none => none
      else if c = 't' then
        match dropLit ("rue").data rest with
        | some rest2 => some (.bool true, rest2)
        | none => none
      else if c = 'f' then
        match dropLit ("alse").data rest with
        | some rest2 => some (.bool false, rest2)
        | none => none
      else if c = 'n' then
        match dropLit ("ull").data rest with
        | some rest2 => some (.null, rest2)
        | none => none
      else
        match parseNum (c :: rest) with
        | some (tok, rest2) => some (.num (String.mk tok), rest2)
        | none => none

/-- Parse one or more `"key" : value` members separated by commas, leaving
the closing `}` (whitespace before it already skipped) to the caller. -/
def parseMembers : Nat → List Char → Option (List (String × Json) × List Char)
  | 0, _ => none
  | fuel + 1, cs =>
    match cs with
    | [] => none
    | c :: rest =>
      if c = '"' then
        match parseStrRest rest with
        | some (raw, rest2) =>
          match expectChar ':' (skipJsonWs rest2) with
          | some rest3 =>
            match parseVal fuel (skipJsonWs rest3) with
            | some (v, rest4) =>
              match expectChar ',' (skipJsonWs rest4) with
              | some rest5 =>
                match parseMembers fuel (skipJsonWs rest5) with
                | some (kvs, rest6) => some ((String.mk raw, v) :: kvs, rest6)
                | none => none
              | none => some ([(String.mk raw, v)], skipJsonWs rest4)
            | none => none
          | none => none
        | none => none
      else none

/-- Parse one or more array elements separated by commas, leaving the
closing `]` (whitespace before it already skipped) to the caller. -/
def parseElems : Nat → List Char → Option (List Json × List Char)
  | 0, _ => none
  | fuel + 1, cs =>
    match parseVal fuel cs with
    | some (v, rest) =>
      match expectChar ',' (skipJsonWs rest) with
      | some rest2 =>
        match parseElems fuel (skipJsonWs rest2) with
        | some (vs, rest3) => some (v :: vs, rest3)
        | none => none
      | none => some ([v], skipJsonWs rest)
    | none => none

end

/-- Model of `JSON.parse` success: `json = ws value ws`, nothing else. -/
def jsonParse (s : String) : Option Json :=
  match parseVal (s.length + 1) (skipJsonWs s.data) with
  | some (v, rest) => if skipJsonWs rest = [] then some v else none
  | none => none

/-- Model of `text.replace(/^```(?:json)?\s*/, '')` (src/index.tsx:244):
the regex is anchored and case-sensitive. -/
def stripLeadFence (cs : List Char) : List Char :=
  if ("```json").data.isPrefixOf cs then (cs.drop 7).dropWhile jsWs
  else if ("```").data.isPrefixOf cs then (cs.drop 3).dropWhile jsWs
  else cs

/-- Model of `.replace(/\s*```$/, '')` (src/index.tsx:245): a trailing
fence plus the whitespace run before it is removed. -/
def stripTrailFence (cs : List Char) : List Char :=
  if ("```").data.isSuffixOf cs then
    ((cs.take (cs.length - 3)).reverse.dropWhile jsWs).reverse
  else cs

/-- Case-insensitive literal consumption, for the `gi` fence regex. -/
def ciDropLit (lit cs : List Char) : Option (List Char) :=
  if (lit.map Char.toLower).isPrefixOf (cs.map Char.toLower) then
    some (cs.drop lit.length)
  else none

/-- Worker for `removeJsonFences`, fuelled. -/
def removeJsonFencesGo : Nat → List Char → List Char
  | _, [] => []
  | 0, cs => cs
  | fuel + 1, c :: cs =>
    match ciDropLit ("```json").data (c :: cs) with
    | some rest => removeJsonFencesGo fuel (rest.dropWhile jsWs)
    | none => c :: removeJsonFencesGo fuel cs

/-- Model of `.replace(/```json\s*/gi, '')` (src/index.tsx:249). -/
def removeJsonFences (cs : List Char) : List Char :=
  removeJsonFencesGo cs.length cs

/-- Worker for `removeFences`, fuelled. -/
def removeFencesGo : Nat → List Char → List Char
  | _, [] => []
  | 0, cs => cs
  | fuel + 1, c :: cs =>
    match dropLit ("```").data (c :: cs) with
    | some rest => removeFencesGo fuel (rest.dropWhile jsWs)
    | none => c :: removeFencesGo fuel cs

/-- Model of `.replace(/```\s*/g, '')` (src/index.tsx:249). -/
def removeFences (cs : List Char) : List Char :=
  removeFencesGo cs.length cs

/-- Worker for `removeTrailCommas`, fuelled. -/
def removeTrailCommasGo : Nat → List Char → List Char
  | _, [] => []
  | 0, cs => cs
  | fuel + 1, c :: cs =>
    if c = ',' then
      match cs.dropWhile jsWs with
      | b :: rest =>
        if b = '}' || b = ']' then
          (cs.takeWhile jsWs ++ [b]) ++ removeTrailCommasGo fuel rest
        else c :: removeTrailCommasGo fuel cs
      | [] => c :: removeTrailCommasGo fuel cs
    else c :: removeTrailCommasGo fuel cs

/-- Model of `.replace(/,(\s*[}\]])/g, '$1')` (src/index.tsx:252): a comma
directly before (whitespace and) a closing bracket is dropped, the capture
kept, scanning resuming after the bracket. -/
def removeTrailCommas (cs : List Char) : List Char :=
  removeTrailCommasGo cs.length cs

/-- Model of `.replace(/,(?=\s*[}\]])/g, '')` (src/index.tsx:328): the
lookahead variant — only the comma is consumed. -/
def removeTrailCommasLA : List Char → List Char
  | [] => []
  | c :: cs =>
    if c = ',' then
      match cs.dropWhile jsWs with
      | b :: _ =>
        if b = '}' || b = ']' then removeTrailCommasLA cs
        else c :: removeTrailCommasLA cs
      | [] => c :: removeTrailCommasLA cs
    else c :: removeTrailCommasLA cs

/-- The full cleanup chain of src/index.tsx:243-252, in source order:
anchored fence strip, trailing fence strip, trim, global fence removal,
trailing-comma removal. -/
def cleanTextModel (cs : List Char) : List Char :=
  removeTrailCommas (removeFences (removeJsonFences
    (jsTrim (stripTrailFence (stripLeadFence cs)))))

/-- State of the bracket-balancing scan of src/index.tsx:274-305. -/
structure ScanSt where
  bal : Nat
  inStr : Bool
  esc : Bool
deriving DecidableEq

/-- Prefix a character onto a scan outcome's consumed part. -/
def scanCons (c : Char) :
    ScanSt ⊕ (List Char × List Char) → ScanSt ⊕ (List Char × List Char)
  | .inl st => .inl st
  | .inr (p, r) => .inr (c :: p, r)

/-- The balanced-close scan of src/index.tsx:279-305, started at index 1
(after the opening bracket) with balance 1.  On finding the matching close
it returns the consumed characters (close included) and the remainder; on
exhaustion it returns the final state, whose balance drives the auto-close
repair. -/
def scanSplit (sc ec : Char) : ScanSt → List Char → ScanSt ⊕ (List Char × List Char)
  | st, [] => .inl st
  | st, c :: cs =>
    if st.esc then scanCons c (scanSplit sc ec ⟨st.bal, st.inStr, false⟩ cs)
    else if c = '\\' then
      scanCons c (scanSplit sc ec ⟨st.bal, st.inStr, true⟩ cs)
    else
      if (if c = '"' then !st.inStr else st.inStr) then
        scanCons c (scanSplit sc ec
          ⟨st.bal, if c = '"' then !st.inStr else st.inStr, false⟩ cs)
      else if c = sc then
        scanCons c (scanSplit sc ec ⟨st.bal + 1, false, false⟩ cs)
      else if c = ec then
        if st.bal = 1 then .inr ([c], cs)
        else scanCons c (scanSplit sc ec ⟨st.bal - 1, false, false⟩ cs)
      else scanCons c (scanSplit sc ec ⟨st.bal, false, false⟩ cs)

/-- Scan phase of `extractJson` (src/index.tsx:270-318): pick the closing
bracket for the leading character, scan for the balanced close, and on a
truncated input append `endChar.repeat(balance)`. -/
def scanCandidate (c0 : Char) (tl : List Char) : List Char :=
  match scanSplit c0 (if c0 = '{' then '}' else ']') ⟨1, false, false⟩ tl with
  | .inr (consumed, _) => c0 :: consumed
  | .inl fin =>
    if fin.bal > 0 then
      (c0 :: tl) ++ List.replicate fin.bal (if c0 = '{' then '}' else ']')
    else c0 :: tl

/-- Parse-or-repair tail of `extractJson` (src/index.tsx:321-338). -/
def finishCandidate (cand : List Char) : Except String String :=
  if (jsonParse (String.mk cand)).isSome then .ok (String.mk cand)
  else
    if (jsonParse (String.mk (removeTrailCommasLA cand))).isSome then
      .ok (String.mk (removeTrailCommasLA cand))
    else .error "Unable to parse JSON from AI response after multiple repair attempts."

/-- Scan from the chosen start index, src/index.tsx:268-318. -/
def extractFrom (cleaned : List Char) (start : Nat) : Except String String :=
  match cleaned.drop start with
  | [] =>
    .error "No JSON object/array found. Ensure your prompt requests JSON output only without markdown."
  | c0 :: tl => finishCandidate (scanCandidate c0 tl)

/-- Model of `extractJson` (src/index.tsx:230-339).  The three falsy/empty
validation conditions of line 232 all reduce, for string input, to the
trimmed text being empty. -/
def extractJson (text : String) : Except String String :=
  if jsTrim text.data = [] then
    .error "Input text is invalid, empty, or not a string."
  else if (jsonParse text).isSome then .ok text
  else
    match List.findIdx? (fun c => c = '{') (cleanTextModel text.data),
        List.findIdx? (fun c => c = '[') (cleanTextModel text.data) with
    | none, none =>
      .error "No JSON object/array found. Ensure your prompt requests JSON output only without markdown."
    | none, some j => extractFrom (cleanTextModel text.data) j
    | some i, none => extractFrom (cleanTextModel text.data) i
    | some i, some j => extractFrom (cleanTextModel text.data) (min i j)

/-
Scanner-transparency lemmas: scanning any parsed JSON value text from a
positive balance (object scanner, bracket pair braces) passes through it
without stopping and restores the scan state.  They connect `parseVal` to
`scanSplit` for the `extractJson` round-trip theorem.
-/

/-- Prefix a whole consumed chunk onto a scan outcome. -/
def scanPre (t : List Char) :
    ScanSt ⊕ (List Char × List Char) → ScanSt ⊕ (List Char × List Char)
  | .inl st => .inl st
  | .inr (p, r) => .inr (t ++ p, r)

theorem scanPre_nil (x : ScanSt ⊕ (List Char × List Char)) :
    scanPre [] x = x := by
  cases x with
  | inl st => rfl
  | inr p => cases p; rfl

theorem scanPre_single (c : Char) (x : ScanSt ⊕ (List Char × List Char)) :
    scanPre [c] x = scanCons c x := by
  cases x with
  | inl st => rfl
  | inr p => cases p; rfl

theorem scanPre_append (t1 t2 : List Char)
    (x : ScanSt ⊕ (List Char × List Char)) :
    scanPre (t1 ++ t2) x = scanPre t1 (scanPre t2 x) := by
  cases x with
  | inl st => rfl
  | inr p => cases p; simp [scanPre]

/-- Transparency: scanning `t` from state `st` neither stops nor depends on
what follows, and leaves the scanner in state `st2`. -/
def Transp (st st2 : ScanSt) (t : List Char) : Prop :=
  ∀ z, scanSplit '{' '}' st (t ++ z) = scanPre t (scanSplit '{' '}' st2 z)

theorem transp_nil (st : ScanSt) : Transp st st [] := by
  intro z
  rw [List.nil_append, scanPre_nil]

theorem transp_append {s1 s2 s3 : ScanSt} {t1 t2 : List Char}
    (h1 : Transp s1 s2 t1) (h2 : Transp s2 s3 t2) :
    Transp s1 s3 (t1 ++ t2) := by
  intro z
  rw [List.append_assoc, h1, h2, ← scanPre_append]

theorem transp_esc (b : Nat) (inS : Bool) (c : Char) :
    Transp ⟨b, inS, true⟩ ⟨b, inS, false⟩ [c] := by
  intro z
  rw [scanPre_single]
  simp [scanSplit]

theorem transp_backslash (b : Nat) (inS : Bool) :
    Transp ⟨b, inS, false⟩ ⟨b, inS, true⟩ ['\\'] := by
  intro z
  rw [scanPre_single]
  simp [scanSplit]

theorem transp_quote (b : Nat) (inS : Bool) :
    Transp ⟨b, inS, false⟩ ⟨b, !inS, false⟩ ['"'] := by
  intro z
  rw [scanPre_single]
  cases inS <;> simp [scanSplit]

theorem transp_instr (b : Nat) {c : Char} (h1 : c ≠ '\\') (h2 : c ≠ '"') :
    Transp ⟨b, true, false⟩ ⟨b, true, false⟩ [c] := by
  intro z
  rw [scanPre_single]
  simp [scanSplit, h1, h2]

theorem transp_open (b : Nat) :
    Transp ⟨b, false, false⟩ ⟨b + 1, false, false⟩ ['{'] := by
  intro z
  rw [scanPre_single]
  simp [scanSplit]

theorem transp_close {b : Nat} (h : 2 ≤ b) :
    Transp ⟨b, false, false⟩ ⟨b - 1, false, false⟩ ['}'] := by
  intro z
  rw [scanPre_single]
  have hb : ¬ b = 1 := by omega
  simp [scanSplit, hb]

/-- Characters invisible to the brace scanner outside strings. -/
def scanInert (c : Char) : Bool :=
  c ≠ '\\' && c ≠ '"' && c ≠ '{' && c ≠ '}'

theorem transp_other (b : Nat) {c : Char} (h : scanInert c = true) :
    Transp ⟨b, false, false⟩ ⟨b, false, false⟩ [c] := by
  simp only [scanInert, Bool.and_eq_true, decide_eq_true_eq] at h
  obtain ⟨⟨⟨h1, h2⟩, h3⟩, h4⟩ := h
  intro z
  rw [scanPre_single]
  simp [scanSplit, h1, h2, h3, h4]

theorem transp_inert_list (b : Nat) {t : List Char}
    (h : ∀ c ∈ t, scanInert c = true) :
    Transp ⟨b, false, false⟩ ⟨b, false, false⟩ t := by
  induction t with
  | nil => exact transp_nil _
  | cons c cs ih =>
    have : ([c] ++ cs : List Char) = c :: cs := rfl
    rw [← this]
    exact transp_append (transp_other b (h c (by simp)))
      (ih (fun x hx => h x (by simp [hx])))

theorem scanStop (z : List Char) :
    scanSplit '{' '}' ⟨1, false, false⟩ ('}' :: z) = .inr (['}'], z) := by
  simp [scanSplit]

theorem jsonWs_inert {c : Char} (h : isJsonWs c = true) : scanInert c = true := by
  simp only [isJsonWs, Bool.or_eq_true, decide_eq_true_eq] at h
  rcases h with ((rfl | rfl) | rfl) | rfl <;> decide

theorem transp_ws_list (b : Nat) {t : List Char}
    (h : ∀ c ∈ t, isJsonWs c = true) :
    Transp ⟨b, false, false⟩ ⟨b, false, false⟩ t :=
  transp_inert_list b (fun c hc => jsonWs_inert (h c hc))

theorem skipJsonWs_split (cs : List Char) :
    ∃ w, cs = w ++ skipJsonWs cs ∧ ∀ c ∈ w, isJsonWs c = true :=
  ⟨cs.takeWhile isJsonWs,
    (List.takeWhile_append_dropWhile isJsonWs cs).symm,
    fun _ hc => List.mem_takeWhile_imp hc⟩

theorem digit_inert {c : Char} (h : c.isDigit = true) : scanInert c = true := by
  simp only [scanInert, Bool.and_eq_true, decide_eq_true_eq]
  refine ⟨⟨⟨?_, ?_⟩, ?_⟩, ?_⟩ <;>
    (rintro rfl; revert h; decide)

theorem hex_not {c : Char} (h : jsonHex c = true) : c ≠ '\\' ∧ c ≠ '"' := by
  constructor <;> (rintro rfl; revert h; decide)

theorem parseStrRestGo_scan :
    ∀ fuel cs raw rest, parseStrRestGo fuel cs = some (raw, rest) →
      ∃ t, cs = t ++ rest ∧ ∀ b, Transp ⟨b, true, false⟩ ⟨b, false, false⟩ t := by
  intro fuel
  induction fuel with
  | zero =>
    intro cs raw rest h
    simp [parseStrRestGo] at h
  | succ fuel ih =>
    intro cs raw rest h
    cases cs with
    | nil => simp [parseStrRestGo] at h
    | cons c rest0 =>
      by_cases hq : c = '"'
      · subst hq
        rw [show parseStrRestGo (fuel + 1) ('"' :: rest0) = some ([], rest0)
          from by simp [parseStrRestGo]] at h
        simp only [Option.some.injEq, Prod.mk.injEq] at h
        obtain ⟨-, rfl⟩ := h
        refine ⟨['"'], rfl, fun b => ?_⟩
        have := transp_quote b true
        simpa using this
      · by_cases hb : c = '\\'
        · subst hb
          cases rest0 with
          | nil => simp [parseStrRestGo, hq] at h
          | cons e rest1 =>
            by_cases hesc : simpleEsc e = true
            · rw [show parseStrRestGo (fuel + 1) ('\\' :: e :: rest1) =
                  (parseStrRestGo fuel rest1).map
                    (fun p => ('\\' :: e :: p.1, p.2)) from by
                simp [parseStrRestGo, hesc]] at h
              cases hin : parseStrRestGo fuel rest1 with
              | none => rw [hin] at h; exact absurd h (by simp)
              | some p =>
                obtain ⟨p1, p2⟩ := p
                rw [hin] at h
                simp only [Option.map_some', Option.some.injEq,
                  Prod.mk.injEq] at h
                obtain ⟨-, rfl⟩ := h
                obtain ⟨t0, ht0, htr⟩ := ih rest1 p1 p2 hin
                refine ⟨'\\' :: e :: t0, by simp [ht0], fun b => ?_⟩
                have := transp_append (transp_backslash b true)
                  (transp_append (transp_esc b true e) (htr b))
                simpa using this
            · by_cases hu : e = 'u'
              · subst hu
                cases rest1 with
                | nil => simp [parseStrRestGo, hesc] at h
                | cons a1 t1 =>
                  cases t1 with
                  | nil => simp [parseStrRestGo, hesc] at h
                  | cons a2 t2 =>
                    cases t2 with
                    | nil => simp [parseStrRestGo, hesc] at h
                    | cons a3 t3 =>
                      cases t3 with
                      | nil => simp [parseStrRestGo, hesc] at h
                      | cons a4 t4 =>
                        by_cases hhex : (jsonHex a1 && jsonHex a2 &&
                            jsonHex a3 && jsonHex a4) = true
                        · rw [show parseStrRestGo (fuel + 1)
                              ('\\' :: 'u' :: a1 :: a2 :: a3 :: a4 :: t4) =
                              (parseStrRestGo fuel t4).map
                                (fun p => ('\\' :: 'u' :: a1 :: a2 :: a3 ::
                                  a4 :: p.1, p.2)) from by
                            simp [parseStrRestGo, hesc, hhex]] at h
                          cases hin : parseStrRestGo fuel t4 with
                          | none => rw [hin] at h; exact absurd h (by simp)
                          | some p =>
                            obtain ⟨p1, p2⟩ := p
                            rw [hin] at h
                            simp only [Option.map_some', Option.some.injEq,
                              Prod.mk.injEq] at h
                            obtain ⟨-, rfl⟩ := h
                            obtain ⟨t0, ht0, htr⟩ := ih t4 p1 p2 hin
                            simp only [Bool.and_eq_true] at hhex
                            obtain ⟨⟨⟨hx1, hx2⟩, hx3⟩, hx4⟩ := hhex
                            refine ⟨'\\' :: 'u' :: a1 :: a2 :: a3 :: a4 :: t0,
                              by simp [ht0], fun b => ?_⟩
                            have := transp_append (transp_backslash b true)
                              (transp_append (transp_esc b true 'u')
                                (transp_append
                                  (transp_instr b (hex_not hx1).1 (hex_not hx1).2)
                                  (transp_append
                                    (transp_instr b (hex_not hx2).1 (hex_not hx2).2)
                                    (transp_append
                                      (transp_instr b (hex_not hx3).1 (hex_not hx3).2)
                                      (transp_append
                                        (transp_instr b (hex_not hx4).1 (hex_not hx4).2)
                                        (htr b))))))
                            simpa using this
                        · simp [parseStrRestGo, hesc, hhex] at h
              · simp [parseStrRestGo, hesc, hu] at h
        · by_cases hge : c.toNat ≥ 32
          · rw [show parseStrRestGo (fuel + 1) (c :: rest0) =
                (parseStrRestGo fuel rest0).map (fun p => (c :: p.1, p.2))
              from by simp [parseStrRestGo, hq, hb, hge]] at h
            cases hin : parseStrRestGo fuel rest0 with
            | none => rw [hin] at h; exact absurd h (by simp)
            | some p =>
              obtain ⟨p1, p2⟩ := p
              rw [hin] at h
              simp only [Option.map_some', Option.some.injEq, Prod.mk.injEq] at h
              obtain ⟨-, rfl⟩ := h
              obtain ⟨t0, ht0, htr⟩ := ih rest0 p1 p2 hin
              refine ⟨c :: t0, by simp [ht0], fun b => ?_⟩
              have := transp_append (transp_instr b hb hq) (htr b)
              simpa using this
          · simp [parseStrRestGo, hq, hb, hge] at h

theorem parseStrRest_scan {cs raw rest : List Char}
    (h : parseStrRest cs = some (raw, rest)) :
    ∃ t, cs = t ++ rest ∧ ∀ b, Transp ⟨b, true, false⟩ ⟨b, false, false⟩ t :=
  parseStrRestGo_scan cs.length cs raw rest h

theorem parseSign_split (cs : List Char) :
    cs = (parseSign cs).1 ++ (parseSign cs).2 ∧
      ∀ c ∈ (parseSign cs).1, scanInert c = true := by
  cases cs with
  | nil => exact ⟨rfl, by simp [parseSign]⟩
  | cons c r =>
    by_cases hc : c = '-'
    · subst hc
      refine ⟨by simp [parseSign], ?_⟩
      simp [parseSign]
      decide
    · refine ⟨by simp [parseSign, hc], ?_⟩
      simp [parseSign, hc]

theorem parseIntPart_split {cs ip rest : List Char}
    (h : parseIntPart cs = some (ip, rest)) :
    cs = ip ++ rest ∧ ∀ c ∈ ip, scanInert c = true := by
  cases cs with
  | nil => simp [parseIntPart] at h
  | cons c r =>
    by_cases h0 : c = '0'
    · subst h0
      rw [show parseIntPart ('0' :: r) = some (['0'], r) from by
        simp [parseIntPart]] at h
      simp only [Option.some.injEq, Prod.mk.injEq] at h
      obtain ⟨rfl, rfl⟩ := h
      exact ⟨rfl, by simp; decide⟩
    · by_cases hd : c.isDigit = true
      · rw [show parseIntPart (c :: r) =
            some (c :: r.takeWhile Char.isDigit, r.dropWhile Char.isDigit)
          from by simp [parseIntPart, h0, hd]] at h
        simp only [Option.some.injEq, Prod.mk.injEq] at h
        obtain ⟨rfl, rfl⟩ := h
        constructor
        · have hrw := List.takeWhile_append_dropWhile Char.isDigit r
          conv_lhs => rw [← hrw]
          rfl
        · intro x hx
          rcases List.mem_cons.mp hx with rfl | hx2
          · exact digit_inert hd
          · exact digit_inert (List.mem_takeWhile_imp hx2)
      · simp [parseIntPart, h0, hd] at h

theorem parseFrac_split {cs fp rest : List Char}
    (h : parseFrac cs = some (fp, rest)) :
    cs = fp ++ rest ∧ ∀ c ∈ fp, scanInert c = true := by
  cases cs with
  | nil =>
    simp only [parseFrac, Option.some.injEq, Prod.mk.injEq] at h
    obtain ⟨rfl, rfl⟩ := h
    exact ⟨rfl, by simp⟩
  | cons c r =>
    by_cases hc : c = '.'
    · subst hc
      cases htw : r.takeWhile Char.isDigit with
      | nil => simp [parseFrac, htw] at h
      | cons d ds =>
        rw [show parseFrac ('.' :: r) =
            some ('.' :: d :: ds, r.dropWhile Char.isDigit) from by
          simp [parseFrac, htw]] at h
        simp only [Option.some.injEq, Prod.mk.injEq] at h
        obtain ⟨rfl, rfl⟩ := h
        constructor
        · have hrw := List.takeWhile_append_dropWhile Char.isDigit r
          rw [htw] at hrw
          conv_lhs => rw [← hrw]
          rfl
        · intro x hx
          rcases List.mem_cons.mp hx with rfl | hx2
          · decide
          · have : x ∈ r.takeWhile Char.isDigit := by rw [htw]; exact hx2
            exact digit_inert (List.mem_takeWhile_imp this)
    · rw [show parseFrac (c :: r) = some ([], c :: r) from by
        simp [parseFrac, hc]] at h
      simp only [Option.some.injEq, Prod.mk.injEq] at h
      obtain ⟨rfl, rfl⟩ := h
      exact ⟨rfl, by simp⟩

theorem parseExp_split {cs ep rest : List Char}
    (h : parseExp cs = some (ep, rest)) :
    cs = ep ++ rest ∧ ∀ c ∈ ep, scanInert c = true := by
  cases cs with
  | nil =>
    simp only [parseExp, Option.some.injEq, Prod.mk.injEq] at h
    obtain ⟨rfl, rfl⟩ := h
    exact ⟨rfl, by simp⟩
  | cons c r =>
    by_cases he : (c = 'e' || c = 'E') = true
    · have hce : scanInert c = true := by
        rcases Bool.or_eq_true _ _ |>.mp he with h1 | h1
        · rw [decide_eq_true_eq.mp h1]; decide
        · rw [decide_eq_true_eq.mp h1]; decide
      cases r with
      | nil => simp [parseExp, he] at h
      | cons s r2 =>
        by_cases hs : (s = '+' || s = '-') = true
        · have hcs : scanInert s = true := by
            rcases Bool.or_eq_true _ _ |>.mp hs with h1 | h1
            · rw [decide_eq_true_eq.mp h1]; decide
            · rw [decide_eq_true_eq.mp h1]; decide
          cases htw : r2.takeWhile Char.isDigit with
          | nil => simp [parseExp, he, hs, htw] at h
          | cons d ds =>
            rw [show parseExp (c :: s :: r2) =
                some (c :: s :: d :: ds, r2.dropWhile Char.isDigit) from by
              simp [parseExp, he, hs, htw]] at h
            simp only [Option.some.injEq, Prod.mk.injEq] at h
            obtain ⟨rfl, rfl⟩ := h
            constructor
            · have hrw := List.takeWhile_append_dropWhile Char.isDigit r2
              rw [htw] at hrw
              conv_lhs => rw [← hrw]
              rfl
            · intro x hx
              rcases List.mem_cons.mp hx with rfl | hx2
              · exact hce
              · rcases List.mem_cons.mp hx2 with rfl | hx3
                · exact hcs
                · have : x ∈ r2.takeWhile Char.isDigit := by
                    rw [htw]; exact hx3
                  exact digit_inert (List.mem_takeWhile_imp this)
        · cases htw : (s :: r2).takeWhile Char.isDigit with
          | nil => simp [parseExp, he, hs, htw] at h
          | cons d ds =>
            rw [show parseExp (c :: s :: r2) =
                some (c :: d :: ds, (s :: r2).dropWhile Char.isDigit) from by
              simp [parseExp, he, hs, htw]] at h
            simp only [Option.some.injEq, Prod.mk.injEq] at h
            obtain ⟨rfl, rfl⟩ := h
            constructor
            · have hrw := List.takeWhile_append_dropWhile Char.isDigit (s :: r2)
              rw [htw] at hrw
              conv_lhs => rw [← hrw]
              rfl
            · intro x hx
              rcases List.mem_cons.mp hx with rfl | hx2
              · exact hce
              · have : x ∈ (s :: r2).takeWhile Char.isDigit := by
                  rw [htw]; exact hx2
                exact digit_inert (List.mem_takeWhile_imp this)
    · rw [show parseExp (c :: r) = some ([], c :: r) from by
        simp [parseExp, he]] at h
      simp only [Option.some.injEq, Prod.mk.injEq] at h
      obtain ⟨rfl, rfl⟩ := h
      exact ⟨rfl, by simp⟩

theorem parseNum_scan {cs tok rest : List Char}
    (h : parseNum cs = some (tok, rest)) :
    cs = tok ++ rest ∧ ∀ c ∈ tok, scanInert c = true := by
  unfold parseNum at h
  cases hip : parseIntPart (parseSign cs).2 with
  | none => simp [hip] at h
  | some p =>
    obtain ⟨ip, cs2⟩ := p
    simp only [hip] at h
    cases hfp : parseFrac cs2 with
    | none => simp [hfp] at h
    | some q =>
      obtain ⟨fp, cs3⟩ := q
      simp only [hfp] at h
      cases hep : parseExp cs3 with
      | none => simp [hep] at h
      | some w =>
        obtain ⟨ep, cs4⟩ := w
        simp only [hep, Option.some.injEq, Prod.mk.injEq] at h
        obtain ⟨rfl, rfl⟩ := h
        obtain ⟨hsg1, hsg2⟩ := parseSign_split cs
        obtain ⟨hip1, hip2⟩ := parseIntPart_split hip
        obtain ⟨hfp1, hfp2⟩ := parseFrac_split hfp
        obtain ⟨hep1, hep2⟩ := parseExp_split hep
        constructor
        · conv_lhs => rw [hsg1, hip1, hfp1, hep1]
          simp [List.append_assoc]
        · intro x hx
          simp only [List.mem_append] at hx
          rcases hx with ((hx | hx) | hx) | hx
          · exact hsg2 x hx
          · exact hip2 x hx
          · exact hfp2 x hx
          · exact hep2 x hx

theorem dropLit_split {lit cs rest : List Char}
    (h : dropLit lit cs = some rest) : cs = lit ++ rest := by
  unfold dropLit at h
  split at h
  · next hp =>
    obtain ⟨t, ht⟩ := List.isPrefixOf_iff_prefix.mp hp
    simp only [Option.some.injEq] at h
    subst h
    rw [← ht, List.drop_left]
  · exact absurd h (by simp)

theorem scan_triple : ∀ fuel,
    (∀ cs v rest, parseVal fuel cs = some (v, rest) →
      ∃ t, cs = t ++ rest ∧
        ∀ b, 1 ≤ b → Transp ⟨b, false, false⟩ ⟨b, false, false⟩ t) ∧
    (∀ cs kvs rest, parseMembers fuel cs = some (kvs, rest) →
      ∃ t, cs = t ++ rest ∧
        ∀ b, 1 ≤ b → Transp ⟨b, false, false⟩ ⟨b, false, false⟩ t) ∧
    (∀ cs vs rest, parseElems fuel cs = some (vs, rest) →
      ∃ t, cs = t ++ rest ∧
        ∀ b, 1 ≤ b → Transp ⟨b, false, false⟩ ⟨b, false, false⟩ t) := by
  intro fuel
  induction fuel with
  | zero =>
    refine ⟨?_, ?_, ?_⟩ <;> intro cs x rest h <;>
      simp [parseVal, parseMembers, parseElems] at h
  | succ fuel ih =>
    obtain ⟨ihV, ihM, ihE⟩ := ih
    refine ⟨?_, ?_, ?_⟩
    · intro cs v rest h
      cases cs with
      | nil => simp [parseVal] at h
      | cons c rest0 =>
        simp only [parseVal] at h
        by_cases hbrace : c = '{'
        · subst hbrace
          rw [if_pos rfl] at h
          cases he : expectChar '}' (skipJsonWs rest0) with
          | some rest2 =>
            simp only [he, Option.some.injEq, Prod.mk.injEq] at h
            obtain ⟨hv, hr⟩ := h
            subst hr
            have hsq := expectChar_some he
            obtain ⟨w, hw, hwi⟩ := skipJsonWs_split rest0
            refine ⟨['{'] ++ (w ++ ['}']), ?_, ?_⟩
            · conv_lhs => rw [hw, hsq]
              simp
            · intro b hb
              exact transp_append (transp_open b)
                (transp_append (transp_ws_list (b + 1) hwi)
                  (@transp_close (b + 1) (by omega)))
          | none =>
            simp only [he] at h
            cases hm : parseMembers fuel (skipJsonWs rest0) with
            | none => simp [hm] at h
            | some p =>
              obtain ⟨kvs, rest3⟩ := p
              simp only [hm] at h
              cases hc2 : expectChar '}' rest3 with
              | none => simp [hc2] at h
              | some rest4 =>
                simp only [hc2, Option.some.injEq, Prod.mk.injEq] at h
                obtain ⟨hv, hr⟩ := h
                subst hr
                obtain ⟨w, hw, hwi⟩ := skipJsonWs_split rest0
                obtain ⟨tM, htM, htMt⟩ := ihM _ _ _ hm
                have h3 := expectChar_some hc2
                refine ⟨['{'] ++ (w ++ (tM ++ ['}'])), ?_, ?_⟩
                · conv_lhs => rw [hw, htM, h3]
                  simp
                · intro b hb
                  exact transp_append (transp_open b)
                    (transp_append (transp_ws_list (b + 1) hwi)
                      (transp_append (htMt (b + 1) (by omega))
                        (@transp_close (b + 1) (by omega))))
        · rw [if_neg hbrace] at h
          by_cases hbrk : c = '['
          · subst hbrk
            rw [if_pos rfl] at h
            cases he : expectChar ']' (skipJsonWs rest0) with
            | some rest2 =>
              simp only [he, Option.some.injEq, Prod.mk.injEq] at h
              obtain ⟨hv, hr⟩ := h
              subst hr
              have hsq := expectChar_some he
              obtain ⟨w, hw, hwi⟩ := skipJsonWs_split rest0
              refine ⟨['['] ++ (w ++ [']']), ?_, ?_⟩
              · conv_lhs => rw [hw, hsq]
                simp
              · intro b hb
                exact transp_append (transp_other b (by decide))
                  (transp_append (transp_ws_list b hwi)
                    (transp_other b (by decide)))
            | none =>
              simp only [he] at h
              cases hm : parseElems fuel (skipJsonWs rest0) with
              | none => simp [hm] at h
              | some p =>
                obtain ⟨vs, rest3⟩ := p
                simp only [hm] at h
                cases hc2 : expectChar ']' rest3 with
                | none => simp [hc2] at h
                | some rest4 =>
                  simp only [hc2, Option.some.injEq, Prod.mk.injEq] at h
                  obtain ⟨hv, hr⟩ := h
                  subst hr
                  obtain ⟨w, hw, hwi⟩ := skipJsonWs_split rest0
                  obtain ⟨tE, htE, htEt⟩ := ihE _ _ _ hm
                  have h3 := expectChar_some hc2
                  refine ⟨['['] ++ (w ++ (tE ++ [']'])), ?_, ?_⟩
                  · conv_lhs => rw [hw, htE, h3]
                    simp
                  · intro b hb
                    exact transp_append (transp_other b (by decide))
                      (transp_append (transp_ws_list b hwi)
                        (transp_append (htEt b hb)
                          (transp_other b (by decide))))
          · rw [if_neg hbrk] at h
            by_cases hquo : c = '"'
            · subst hquo
              rw [if_pos rfl] at h
              cases hs : parseStrRest rest0 with
              | none => simp [hs] at h
              | some p =>
                obtain ⟨raw, rest2⟩ := p
                simp only [hs, Option.some.injEq, Prod.mk.injEq] at h
                obtain ⟨hv, hr⟩ := h
                subst hr
                obtain ⟨t0, ht0, ht0t⟩ := parseStrRest_scan hs
                refine ⟨['"'] ++ t0, ?_, ?_⟩
                · rw [ht0]
                  simp
                · intro b hb
                  exact transp_append (transp_quote b false) (ht0t b)
            · rw [if_neg hquo] at h
              by_cases ht : c = 't'
              · subst ht
                rw [if_pos rfl] at h
                cases hd : dropLit ("rue").data rest0 with
                | none => simp [hd] at h
                | some rest2 =>
                  simp only [hd, Option.some.injEq, Prod.mk.injEq] at h
                  obtain ⟨hv, hr⟩ := h
                  subst hr
                  have hsplit := dropLit_split hd
                  refine ⟨'t' :: ("rue").data, ?_, ?_⟩
                  · rw [hsplit]
                    rfl
                  · intro b hb
                    exact transp_inert_list b (by decide)
              · rw [if_neg ht] at h
                by_cases hf : c = 'f'
                · subst hf
                  rw [if_pos rfl] at h
                  cases hd : dropLit ("alse").data rest0 with
                  | none => simp [hd] at h
                  | some rest2 =>
                    simp only [hd, Option.some.injEq, Prod.mk.injEq] at h
                    obtain ⟨hv, hr⟩ := h
                    subst hr
                    have hsplit := dropLit_split hd
                    refine ⟨'f' :: ("alse").data, ?_, ?_⟩
                    · rw [hsplit]
                      rfl
                    · intro b hb
                      exact transp_inert_list b (by decide)
                · rw [if_neg hf] at h
                  by_cases hn : c = 'n'
                  · subst hn
                    rw [if_pos rfl] at h
                    cases hd : dropLit ("ull").data rest0 with
                    | none => simp [hd] at h
                    | some rest2 =>
                      simp only [hd, Option.some.injEq, Prod.mk.injEq] at h
                      obtain ⟨hv, hr⟩ := h
                      subst hr
                      have hsplit := dropLit_split hd
                      refine ⟨'n' :: ("ull").data, ?_, ?_⟩
                      · rw [hsplit]
                        rfl
                      · intro b hb
                        exact transp_inert_list b (by decide)
                  · rw [if_neg hn] at h
                    cases hnum : parseNum (c :: rest0) with
                    | none => simp [hnum] at h
                    | some p =>
                      obtain ⟨tok, rest2⟩ := p
                      simp only [hnum, Option.some.injEq, Prod.mk.injEq] at h
                      obtain ⟨hv, hr⟩ := h
                      subst hr
                      obtain ⟨hsplit, hinert⟩ := parseNum_scan hnum
                      exact ⟨tok, hsplit,
                        fun b _ => transp_inert_list b hinert⟩
    · intro cs kvs rest h
      cases cs with
      | nil => simp [parseMembers] at h
      | cons c rest0 =>
        simp only [parseMembers] at h
        by_cases hquo : c = '"'
        · subst hquo
          rw [if_pos rfl] at h
          cases hs : parseStrRest rest0 with
          | none => simp [hs] at h
          | some p =>
            obtain ⟨raw, rest2⟩ := p
            simp only [hs] at h
            cases hc1 : expectChar ':' (skipJsonWs rest2) with
            | none => simp [hc1] at h
            | some rest3 =>
              simp only [hc1] at h
              cases hv : parseVal fuel (skipJsonWs rest3) with
              | none => simp [hv] at h
              | some q =>
                obtain ⟨v, rest4⟩ := q
                simp only [hv] at h
                obtain ⟨t0, ht0, ht0t⟩ := parseStrRest_scan hs
                obtain ⟨w2, hw2, hw2i⟩ := skipJsonWs_split rest2
                have h1 := expectChar_some hc1
                obtain ⟨w3, hw3, hw3i⟩ := skipJsonWs_split rest3
                obtain ⟨tV, htV, htVt⟩ := ihV _ _ _ hv
                cases hc2 : expectChar ',' (skipJsonWs rest4) with
                | some rest5 =>
                  simp only [hc2] at h
                  cases hm : parseMembers fuel (skipJsonWs rest5) with
                  | none => simp [hm] at h
                  | some r =>
                    obtain ⟨kvs2, rest6⟩ := r
                    simp only [hm, Option.some.injEq, Prod.mk.injEq] at h
                    obtain ⟨hk, hr⟩ := h
                    subst hr
                    obtain ⟨w4, hw4, hw4i⟩ := skipJsonWs_split rest4
                    have h2 := expectChar_some hc2
                    obtain ⟨w5, hw5, hw5i⟩ := skipJsonWs_split rest5
                    obtain ⟨tM, htM, htMt⟩ := ihM _ _ _ hm
                    refine ⟨['"'] ++ (t0 ++ (w2 ++ ([':'] ++ (w3 ++
                      (tV ++ (w4 ++ ([','] ++ (w5 ++ tM)))))))), ?_, ?_⟩
                    · conv_lhs => rw [ht0, hw2, h1, hw3, htV, hw4, h2, hw5, htM]
                      simp
                    · intro b hb
                      exact transp_append (transp_quote b false)
                        (transp_append (ht0t b)
                          (transp_append (transp_ws_list b hw2i)
                            (transp_append (transp_other b (by decide))
                              (transp_append (transp_ws_list b hw3i)
                                (transp_append (htVt b hb)
                                  (transp_append (transp_ws_list b hw4i)
                                    (transp_append (transp_other b (by decide))
                                      (transp_append (transp_ws_list b hw5i)
                                        (htMt b hb)))))))))
                | none =>
                  simp only [hc2, Option.some.injEq, Prod.mk.injEq] at h
                  obtain ⟨hk, hr⟩ := h
                  obtain ⟨w4, hw4, hw4i⟩ := skipJsonWs_split rest4
                  refine ⟨['"'] ++ (t0 ++ (w2 ++ ([':'] ++ (w3 ++
                    (tV ++ w4))))), ?_, ?_⟩
                  · conv_lhs => rw [ht0, hw2, h1, hw3, htV, hw4, hr]
                    simp
                  · intro b hb
                    exact transp_append (transp_quote b false)
                      (transp_append (ht0t b)
                        (transp_append (transp_ws_list b hw2i)
                          (transp_append (transp_other b (by decide))
                            (transp_append (transp_ws_list b hw3i)
                              (transp_append (htVt b hb)
                                (transp_ws_list b hw4i))))))
        · rw [if_neg hquo] at h
          simp at h
    · intro cs vs rest h
      simp only [parseElems] at h
      cases hv : parseVal fuel cs with
      | none => simp [hv] at h
      | some p =>
        obtain ⟨v, rest0⟩ := p
        simp only [hv] at h
        obtain ⟨tV, htV, htVt⟩ := ihV _ _ _ hv
        obtain ⟨w, hw, hwi⟩ := skipJsonWs_split rest0
        cases hc : expectChar ',' (skipJsonWs rest0) with
        | some rest2 =>
          simp only [hc] at h
          have h1 := expectChar_some hc
          cases he : parseElems fuel (skipJsonWs rest2) with
          | none => simp [he] at h
          | some q =>
            obtain ⟨vs2, rest3⟩ := q
            simp only [he, Option.some.injEq, Prod.mk.injEq] at h
            obtain ⟨hvs, hr⟩ := h
            subst hr
            obtain ⟨w2, hw2, hw2i⟩ := skipJsonWs_split rest2
            obtain ⟨tE, htE, htEt⟩ := ihE _ _ _ he
            refine ⟨tV ++ (w ++ ([','] ++ (w2 ++ tE))), ?_, ?_⟩
            · conv_lhs => rw [htV, hw, h1, hw2, htE]
              simp
            · intro b hb
              exact transp_append (htVt b hb)
                (transp_append (transp_ws_list b hwi)
                  (transp_append (transp_other b (by decide))
                    (transp_append (transp_ws_list b hw2i) (htEt b hb))))
        | none =>
          simp only [hc, Option.some.injEq, Prod.mk.injEq] at h
          obtain ⟨hvs, hr⟩ := h
          refine ⟨tV ++ w, ?_, ?_⟩
          · conv_lhs => rw [htV, hw, hr]
            simp
          · intro b hb
            exact transp_append (htVt b hb) (transp_ws_list b hwi)

theorem jsTrim_ne_nil {c : Char} {cs : List Char}
    (hm : c ∈ cs) (hw : jsWs c = false) : jsTrim cs ≠ [] := by
  intro hnil
  unfold jsTrim at hnil
  rw [List.reverse_eq_nil_iff, List.dropWhile_eq_nil_iff] at hnil
  have hmem2 : c ∈ cs.dropWhile jsWs := by
    have := List.takeWhile_append_dropWhile jsWs cs
    rw [← this] at hm
    rcases List.mem_append.mp hm with h1 | h1
    · exact absurd (List.mem_takeWhile_imp h1) (by simp [hw])
    · exact h1
  have := hnil c (List.mem_reverse.mpr hmem2)
  rw [hw] at this
  exact Bool.false_ne_true this

theorem scanTop {fuel : Nat} {cs : List Char} {v : Json} {rest : List Char}
    (h : parseVal fuel ('{' :: cs) = some (v, rest)) :
    ∃ t, cs = t ++ rest ∧
      ∀ z, scanSplit '{' '}' ⟨1, false, false⟩ (t ++ z) = .inr (t, z) := by
  cases fuel with
  | zero => simp [parseVal] at h
  | succ fuel =>
    simp only [parseVal] at h
    simp only [if_true] at h
    cases he : expectChar '}' (skipJsonWs cs) with
    | some rest2 =>
      simp only [he, Option.some.injEq, Prod.mk.injEq] at h
      obtain ⟨hv, hr⟩ := h
      subst hr
      have hsq := expectChar_some he
      obtain ⟨w, hw, hwi⟩ := skipJsonWs_split cs
      refine ⟨w ++ ['}'], ?_, ?_⟩
      · conv_lhs => rw [hw, hsq]
        simp
      · intro z
        have hT := transp_ws_list 1 hwi ('}' :: z)
        calc scanSplit '{' '}' ⟨1, false, false⟩ ((w ++ ['}']) ++ z)
            = scanSplit '{' '}' ⟨1, false, false⟩ (w ++ ('}' :: z)) := by
              rw [List.append_assoc]
              rfl
          _ = scanPre w (scanSplit '{' '}' ⟨1, false, false⟩ ('}' :: z)) := hT
          _ = scanPre w (.inr (['}'], z)) := by rw [scanStop]
          _ = .inr (w ++ ['}'], z) := rfl
    | none =>
      simp only [he] at h
      cases hm : parseMembers fuel (skipJsonWs cs) with
      | none => simp [hm] at h
      | some p =>
        obtain ⟨kvs, rest3⟩ := p
        simp only [hm] at h
        cases hc2 : expectChar '}' rest3 with
        | none => simp [hc2] at h
        | some rest4 =>
          simp only [hc2, Option.some.injEq, Prod.mk.injEq] at h
          obtain ⟨hv, hr⟩ := h
          subst hr
          obtain ⟨w, hw, hwi⟩ := skipJsonWs_split cs
          obtain ⟨tM, htM, htMt⟩ := (scan_triple fuel).2.1 _ _ _ hm
          have h3 := expectChar_some hc2
          refine ⟨w ++ (tM ++ ['}']), ?_, ?_⟩
          · conv_lhs => rw [hw, htM, h3]
            simp
          · intro z
            have hT := transp_append (transp_ws_list 1 hwi)
              (htMt 1 le_rfl) ('}' :: z)
            calc scanSplit '{' '}' ⟨1, false, false⟩ ((w ++ (tM ++ ['}'])) ++ z)
                = scanSplit '{' '}' ⟨1, false, false⟩ ((w ++ tM) ++ ('}' :: z)) := by
                  simp only [List.append_assoc]
                  rfl
              _ = scanPre (w ++ tM)
                    (scanSplit '{' '}' ⟨1, false, false⟩ ('}' :: z)) := hT
              _ = scanPre (w ++ tM) (.inr (['}'], z)) := by rw [scanStop]
              _ = .inr ((w ++ tM) ++ ['}'], z) := rfl
              _ = .inr (w ++ (tM ++ ['}']), z) := by rw [List.append_assoc]
/-
Lemmas about `replacePH`, used for the idempotence analysis of
`validateAndRepairInternalLinks`.
-/

theorem replacePHGo_fuel (f : List Char → List Char → List Char) :
    ∀ fuel cs, cs.length ≤ fuel → replacePHGo f fuel cs = replacePH f cs := by
  intro fuel
  induction fuel using Nat.strong_induction_on with
  | _ fuel ih =>
    intro cs hlen
    match fuel, cs with
    | 0, [] => rfl
    | 0, c :: cs => simp at hlen
    | fuel + 1, [] => rfl
    | fuel + 1, c :: cs =>
      show replacePHGo f (fuel + 1) (c :: cs) =
        replacePHGo f (c :: cs).length (c :: cs)
      simp only [List.length_cons] at hlen
      simp only [replacePHGo, List.length_cons]
      cases hm : matchPHAt (c :: cs) with
      | some v =>
        obtain ⟨slug, txt, rest⟩ := v
        have hr := matchPHAt_length hm
        simp only [List.length_cons] at hr hlen
        have h1 : replacePHGo f fuel rest = replacePH f rest :=
          ih fuel (by omega) rest (by omega)
        have h2 : replacePHGo f cs.length rest = replacePH f rest :=
          ih cs.length (by omega) rest (by omega)
        simp [h1, h2]
      | none =>
        have h1 : replacePHGo f fuel cs = replacePH f cs :=
          ih fuel (by omega) cs (by omega)
        have h2 : replacePHGo f cs.length cs = replacePH f cs := rfl
        simp [h1, h2]

theorem replacePH_cons_none {f : List Char → List Char → List Char}
    {c : Char} {cs : List Char} (h : matchPHAt (c :: cs) = none) :
    replacePH f (c :: cs) = c :: replacePH f cs := by
  show replacePHGo f (c :: cs).length (c :: cs) = _
  simp only [List.length_cons, replacePHGo, h]
  rfl

theorem replacePH_cons_some {f : List Char → List Char → List Char}
    {c : Char} {cs slug txt rest : List Char}
    (h : matchPHAt (c :: cs) = some (slug, txt, rest)) :
    replacePH f (c :: cs) = f slug txt ++ replacePH f rest := by
  have hr := matchPHAt_length h
  simp only [List.length_cons] at hr
  show replacePHGo f (c :: cs).length (c :: cs) = _
  simp only [List.length_cons, replacePHGo, h]
  rw [replacePHGo_fuel f cs.length rest (by omega)]

theorem matchPHAt_head_ne {c : Char} (cs : List Char) (h : c ≠ '[') :
    matchPHAt (c :: cs) = none := by
  have hlit : phLit = '[' :: ("INTERNAL_LINK").data := by decide
  have hnone : dropLit phLit (c :: cs) = none := by
    unfold dropLit
    rw [hlit]
    have hpf : ('[' :: ("INTERNAL_LINK").data).isPrefixOf (c :: cs) = false := by
      simp [List.isPrefixOf]
      intro hc
      exact absurd hc.symm h
    simp [hpf]
  unfold matchPHAt
  rw [hnone]
  rfl

theorem isPrefixOf_append_self (l r : List Char) :
    l.isPrefixOf (l ++ r) = true := by
  induction l with
  | nil => simp [List.isPrefixOf]
  | cons c cs ih => simp [List.isPrefixOf, ih]

theorem dropLit_append_self (l r : List Char) :
    dropLit l (l ++ r) = some r := by
  unfold dropLit
  rw [isPrefixOf_append_self]
  simp [List.drop_left]

theorem takeWhile_append_stop {p : Char → Bool} {xs : List Char} {y : Char}
    (ys : List Char) (hxs : ∀ x ∈ xs, p x = true) (hy : p y = false) :
    (xs ++ y :: ys).takeWhile p = xs := by
  induction xs with
  | nil => simp [List.takeWhile, hy]
  | cons a as ih =>
    have ha : p a = true := hxs a (by simp)
    simp [List.takeWhile, ha]
    exact ih (fun x hx => hxs x (by simp [hx]))

theorem dropWhile_append_stop {p : Char → Bool} {xs : List Char} {y : Char}
    (ys : List Char) (hxs : ∀ x ∈ xs, p x = true) (hy : p y = false) :
    (xs ++ y :: ys).dropWhile p = y :: ys := by
  induction xs with
  | nil => simp [List.dropWhile, hy]
  | cons a as ih =>
    have ha : p a = true := hxs a (by simp)
    simp [List.dropWhile, ha]
    exact ih (fun x hx => hxs x (by simp [hx]))

theorem takeAttr_exact {v : List Char} (rest : List Char) (hne : v ≠ [])
    (hq : ∀ x ∈ v, x ≠ '"') :
    takeAttr (v ++ '"' :: rest) = some (v, rest) := by
  have hall : ∀ x ∈ v, (fun d => decide (d ≠ '"')) x = true := by
    intro x hx
    simp [hq x hx]
  have ht : (v ++ '"' :: rest).takeWhile (fun d => decide (d ≠ '"')) = v :=
    takeWhile_append_stop rest hall (by simp)
  have hd : (v ++ '"' :: rest).dropWhile (fun d => decide (d ≠ '"')) =
      '"' :: rest :=
    dropWhile_append_stop rest hall (by simp)
  unfold takeAttr
  cases v with
  | nil => exact absurd rfl hne
  | cons a as =>
    rw [show ((a :: as : List Char) ++ '"' :: rest).takeWhile
        (fun d => decide (d ≠ '"')) = a :: as from ht]
    rw [show ((a :: as : List Char) ++ '"' :: rest).dropWhile
        (fun d => decide (d ≠ '"')) = '"' :: rest from hd]
    rfl

theorem eatWs1_space_cons {d : Char} (rest : List Char) (hd : jsWs d = false) :
    eatWs1 (' ' :: d :: rest) = some (d :: rest) := by
  have hsp : jsWs ' ' = true := by decide
  unfold eatWs1
  simp [List.takeWhile, List.dropWhile, hsp, hd]

theorem matchPHAt_token {slug txt : List Char} (rest : List Char)
    (hs : slug ≠ []) (ht : txt ≠ [])
    (hsq : ∀ x ∈ slug, x ≠ '"') (htq : ∀ x ∈ txt, x ≠ '"') :
    matchPHAt (phTokenChars slug txt ++ rest) = some (slug, txt, rest) := by
  have hsl : slugAttrLit = 's' :: ("lug=\"").data := by decide
  have htl : textAttrLit = 't' :: ("ext=\"").data := by decide
  have e1 : phTokenChars slug txt ++ rest =
      phLit ++ (' ' :: ('s' :: (("lug=\"").data ++ (slug ++
        ('"' :: (' ' :: ('t' :: (("ext=\"").data ++ (txt ++
          ('"' :: (']' :: rest))))))))))) := by
    rw [phTokenChars, hsl, htl]
    simp
  have e2 : ("lug=\"").data ++ (slug ++ ('"' :: (' ' :: ('t' ::
      (("ext=\"").data ++ (txt ++ ('"' :: (']' :: rest)))))))) =
      ("lug=\"").data ++ slug ++ '"' :: (' ' :: ('t' ::
        (("ext=\"").data ++ (txt ++ ('"' :: (']' :: rest)))))) := by
    simp
  have e3 : ("ext=\"").data ++ (txt ++ ('"' :: (']' :: rest))) =
      ("ext=\"").data ++ txt ++ '"' :: (']' :: rest) := by
    simp
  unfold matchPHAt
  rw [e1, dropLit_append_self, Option.some_bind,
    eatWs1_space_cons _ (by decide), Option.some_bind]
  have e4 : 's' :: (("lug=\"").data ++ (slug ++ ('"' :: (' ' :: ('t' ::
      (("ext=\"").data ++ (txt ++ ('"' :: (']' :: rest))))))))) =
      slugAttrLit ++ (slug ++ ('"' :: (' ' :: ('t' :: (("ext=\"").data ++
        (txt ++ ('"' :: (']' :: rest)))))))) := by
    rw [hsl]
    simp
  rw [e4, dropLit_append_self, Option.some_bind]
  have e5 : slug ++ ('"' :: (' ' :: ('t' :: (("ext=\"").data ++
      (txt ++ ('"' :: (']' :: rest))))))) =
      slug ++ '"' :: (' ' :: ('t' :: (("ext=\"").data ++
        (txt ++ ('"' :: (']' :: rest)))))) := rfl
  rw [e5, takeAttr_exact _ hs hsq, Option.some_bind]
  rw [eatWs1_space_cons _ (by decide), Option.some_bind]
  have e6 : 't' :: (("ext=\"").data ++ (txt ++ ('"' :: (']' :: rest)))) =
      textAttrLit ++ (txt ++ ('"' :: (']' :: rest))) := by
    rw [htl]
    simp
  rw [e6, dropLit_append_self, Option.some_bind]
  have e7 : txt ++ ('"' :: (']' :: rest)) = txt ++ '"' :: (']' :: rest) := rfl
  rw [e7, takeAttr_exact _ ht htq, Option.some_bind]
  rfl

/-- Content with no `[` character at all: the placeholder regex cannot
match anywhere inside it. -/
def cleanChars (cs : List Char) : Bool := cs.all (fun c => c ≠ '[')

/-- A well-formed attribute value: non-empty and free of `[` and `"`. -/
def cleanAttr (cs : List Char) : Bool :=
  !cs.isEmpty && cs.all (fun c => c ≠ '[' && c ≠ '"')

theorem replacePH_clean_append {f : List Char → List Char → List Char}
    {s : List Char} (X : List Char) (h : cleanChars s = true) :
    replacePH f (s ++ X) = s ++ replacePH f X := by
  induction s with
  | nil => simp
  | cons c cs ih =>
    simp only [cleanChars, List.all_cons, Bool.and_eq_true,
      decide_eq_true_eq] at h
    have hm : matchPHAt (c :: (cs ++ X)) = none := matchPHAt_head_ne _ h.1
    rw [List.cons_append, replacePH_cons_none hm,
      ih (by simp only [cleanChars]; exact h.2)]
    simp

theorem replacePH_clean_id {f : List Char → List Char → List Char}
    {s : List Char} (h : cleanChars s = true) : replacePH f s = s := by
  induction s with
  | nil => rfl
  | cons c cs ih =>
    simp only [cleanChars, List.all_cons, Bool.and_eq_true,
      decide_eq_true_eq] at h
    have hm : matchPHAt (c :: cs) = none := matchPHAt_head_ne _ h.1
    rw [replacePH_cons_none hm, ih (by simp only [cleanChars]; exact h.2)]

theorem replacePH_at_token {f : List Char → List Char → List Char}
    {s slug txt : List Char} (X : List Char) (hclean : cleanChars s = true)
    (hs : slug ≠ []) (ht : txt ≠ [])
    (hsq : ∀ x ∈ slug, x ≠ '"') (htq : ∀ x ∈ txt, x ≠ '"') :
    replacePH f (s ++ phTokenChars slug txt ++ X) =
      s ++ f slug txt ++ replacePH f X := by
  induction s with
  | nil =>
    have hm : matchPHAt (phTokenChars slug txt ++ X) = some (slug, txt, X) :=
      matchPHAt_token X hs ht hsq htq
    have hshape : phTokenChars slug txt ++ X =
        '[' :: (("INTERNAL_LINK").data ++ (' ' :: slugAttrLit) ++ slug ++
          ('"' :: ' ' :: textAttrLit) ++ txt ++ ['"', ']'] ++ X) := by
      unfold phTokenChars
      have : phLit = '[' :: ("INTERNAL_LINK").data := by decide
      rw [this]
      simp
    rw [List.nil_append, List.nil_append]
    rw [hshape] at hm ⊢
    rw [replacePH_cons_some hm]
  | cons c cs ih =>
    simp only [cleanChars, List.all_cons, Bool.and_eq_true, decide_eq_true_eq] at hclean
    have hm : matchPHAt (c :: (cs ++ phTokenChars slug txt ++ X)) = none := by
      have := matchPHAt_head_ne (cs ++ phTokenChars slug txt ++ X) hclean.1
      simpa using this
    have hstep : replacePH f ((c :: cs) ++ phTokenChars slug txt ++ X) =
        c :: replacePH f (cs ++ phTokenChars slug txt ++ X) := by
      have e : (c :: cs) ++ phTokenChars slug txt ++ X =
          c :: (cs ++ phTokenChars slug txt ++ X) := by simp
      rw [e, replacePH_cons_none hm]
    rw [hstep, ih (by simp only [cleanChars] at hclean ⊢; exact hclean.2)]
    simp

theorem jsReplaceQuot_id {txt : List Char} (h : ∀ x ∈ txt, x ≠ '"') :
    jsReplaceQuot txt = txt := by
  induction txt with
  | nil => rfl
  | cons c cs ih =>
    have hc : c ≠ '"' := h c (by simp)
    simp only [jsReplaceQuot, if_neg hc]
    rw [ih (fun x hx => h x (by simp [hx]))]

theorem repairFold_best_mem (anchorLower : String) (anchorSet : List String) :
    ∀ (pages : List Page) (acc : Option Page × Score) (p : Page),
      (repairFold anchorLower anchorSet acc pages).1 = some p →
      acc.1 = some p ∨
        (p ∈ pages ∧ p.slug ≠ String.mk [] ∧ p.title ≠ String.mk []) := by
  intro pages
  induction pages with
  | nil =>
    intro acc p h
    exact Or.inl h
  | cons page rest ih =>
    intro acc p h
    rw [show repairFold anchorLower anchorSet acc (page :: rest) =
        (if page.slug = String.mk [] || page.title = String.mk [] then
          repairFold anchorLower anchorSet acc rest
        else if titleWordsOf page = [] then
          repairFold anchorLower anchorSet acc rest
        else if (pageScoreOf anchorLower anchorSet page).gtb acc.2 then
          repairFold anchorLower anchorSet
            (some page, pageScoreOf anchorLower anchorSet page) rest
        else repairFold anchorLower anchorSet acc rest) from rfl] at h
    split at h
    · rcases ih acc p h with h1 | h1
      · exact Or.inl h1
      · exact Or.inr ⟨by simp [h1.1], h1.2⟩
    · next hguard =>
      simp only [Bool.or_eq_true, decide_eq_true_eq, not_or] at hguard
      split at h
      · rcases ih acc p h with h1 | h1
        · exact Or.inl h1
        · exact Or.inr ⟨by simp [h1.1], h1.2⟩
      · split at h
        · rcases ih _ p h with h1 | h1
          · simp only [Option.some.injEq] at h1
            subst h1
            exact Or.inr ⟨by simp, hguard.1, hguard.2⟩
          · exact Or.inr ⟨by simp [h1.1], h1.2⟩
        · rcases ih acc p h with h1 | h1
          · exact Or.inl h1
          · exact Or.inr ⟨by simp [h1.1], h1.2⟩

theorem strMk_data (s : String) : String.mk s.data = s := rfl

/-- Case analysis for the repair callback: a placeholder is kept verbatim
(known slug), forged onto a real page's slug, or degraded to its anchor
text. -/
theorem repairPH_cases (pages : List Page) (slug txt : List Char)
    (htq : ∀ x ∈ txt, x ≠ '"') :
    (repairPH pages slug txt = phTokenChars slug txt ∧
      pagesHasSlug pages (String.mk slug) = true) ∨
    (∃ p ∈ pages, p.slug ≠ String.mk [] ∧
      repairPH pages slug txt = phTokenChars p.slug.data txt) ∨
    repairPH pages slug txt = txt := by
  unfold repairPH
  cases hhas : pagesHasSlug pages (String.mk slug) with
  | true => exact Or.inl ⟨by simp, rfl⟩
  | false =>
    simp only [Bool.false_eq_true, if_false]
    cases hbest : (repairFold (lowerStr (String.mk txt))
        (dedupFirst ((jsSplitWs (lowerStr (String.mk txt)).data).filter
          (fun w => w.length > 2)))
        (none, Score.ofInt (-1)) pages).1 with
    | none => exact Or.inr (Or.inr rfl)
    | some p =>
      rcases repairFold_best_mem _ _ pages _ p hbest with h1 | h1
      · exact absurd h1 (by simp)
      · by_cases hgt : ((repairFold (lowerStr (String.mk txt))
            (dedupFirst ((jsSplitWs (lowerStr (String.mk txt)).data).filter
              (fun w => w.length > 2)))
            (none, Score.ofInt (-1)) pages).2).gtb (Score.ofInt 50) = true
        · refine Or.inr (Or.inl ⟨p, h1.1, h1.2.1, ?_⟩)
          simp only [hbest, hgt, if_true]
          rw [jsReplaceQuot_id htq]
        · refine Or.inr (Or.inr ?_)
          simp only [hbest]
          simp [hgt]

/-- Content built from an initial segment and a list of
(slug, text, following-segment) parts, each part contributing one
well-formed placeholder. -/
def chunksText (s0 : List Char) :
    List (List Char × List Char × List Char) → List Char
  | [] => s0
  | (slug, txt, s) :: rest => s0 ++ phTokenChars slug txt ++ chunksText s rest

theorem cleanAttr_parts {v : List Char} (h : cleanAttr v = true) :
    v ≠ [] ∧ (∀ x ∈ v, x ≠ '[') ∧ (∀ x ∈ v, x ≠ '"') := by
  cases v with
  | nil => simp [cleanAttr, List.isEmpty] at h
  | cons a as =>
    simp only [cleanAttr, Bool.and_eq_true, List.all_eq_true,
      decide_eq_true_eq] at h
    refine ⟨by simp, fun x hx => (h.2 x hx).1, fun x hx => (h.2 x hx).2⟩

/-- The heart of the amended idempotence claim: on chunked content whose
segments contain no `[`, whose placeholder attributes are well-formed and
whose page slugs are free of `[` and `"`, applying the repair replace twice
equals applying it once. -/
theorem replacePH_repair_idem (pages : List Page)
    (hpages : ∀ p ∈ pages, (∀ x ∈ p.slug.data, x ≠ '[') ∧
      (∀ x ∈ p.slug.data, x ≠ '"')) :
    ∀ (parts : List (List Char × List Char × List Char)) (s0 : List Char),
      cleanChars s0 = true →
      (∀ x ∈ parts, cleanAttr x.1 = true ∧ cleanAttr x.2.1 = true ∧
        cleanChars x.2.2 = true) →
      replacePH (repairPH pages)
          (replacePH (repairPH pages) (chunksText s0 parts)) =
        replacePH (repairPH pages) (chunksText s0 parts) := by
  intro parts
  induction parts with
  | nil =>
    intro s0 hs0 _
    rw [chunksText, replacePH_clean_id hs0, replacePH_clean_id hs0]
  | cons part rest ih =>
    obtain ⟨slug, txt, s⟩ := part
    intro s0 hs0 hparts
    have hattr := hparts (slug, txt, s) (by simp)
    obtain ⟨ha1, ha2, ha3⟩ := hattr
    obtain ⟨hsne, hsbr, hsq⟩ := cleanAttr_parts ha1
    obtain ⟨htne, htbr, htq⟩ := cleanAttr_parts ha2
    have hrest : ∀ x ∈ rest, cleanAttr x.1 = true ∧ cleanAttr x.2.1 = true ∧
        cleanChars x.2.2 = true := fun x hx => hparts x (by simp [hx])
    have hX := ih s ha3 hrest
    set X := replacePH (repairPH pages) (chunksText s rest) with hXdef
    rw [chunksText]
    rw [replacePH_at_token _ hs0 hsne htne hsq htq]
    rcases repairPH_cases pages slug txt htq with ⟨hkeep, _⟩ | ⟨p, hp, hpne, hforge⟩ | hplain
    · rw [hkeep]
      rw [replacePH_at_token _ hs0 hsne htne hsq htq, hkeep, hX]
    · rw [hforge]
      have hpslugne : p.slug.data ≠ [] := by
        intro hcon
        apply hpne
        rw [← strMk_data p.slug, hcon]
      have hpq : ∀ x ∈ p.slug.data, x ≠ '"' := (hpages p hp).2
      rw [replacePH_at_token _ hs0 hpslugne htne hpq htq]
      have hkeep2 : repairPH pages p.slug.data txt = phTokenChars p.slug.data txt := by
        unfold repairPH
        have : pagesHasSlug pages (String.mk p.slug.data) = true := by
          rw [strMk_data]
          unfold pagesHasSlug
          rw [List.any_eq_true]
          exact ⟨p, hp, by simp⟩
        rw [this]
        simp
      rw [hkeep2, hX]
    · rw [hplain]
      have hs0txt : cleanChars (s0 ++ txt) = true := by
        simp only [cleanChars, List.all_append, Bool.and_eq_true]
        constructor
        · exact hs0
        · simp only [List.all_eq_true, decide_eq_true_eq]
          exact htbr
      have e : s0 ++ txt ++ X = (s0 ++ txt) ++ X := by simp
      rw [e, replacePH_clean_append _ hs0txt, hX]

/-- String-level chunk builder for the amended idempotence claim. -/
def strChunks (s0 : String) (parts : List (String × String × String)) :
    String :=
  String.mk (chunksText s0.data
    (parts.map (fun x => (x.1.data, x.2.1.data, x.2.2.data))))

/-
Claim theorems.
-/

/-- Page list for the C1 failing input: one valid page whose two-word title
keeps it out of the quota candidate pool. -/
def c1pages : List Page := [⟨"https://ex.com/p", "p", "aa bb"⟩]

/-- C1 failing input: a placeholder with its attributes in swapped order.
`processInternalLinks` cannot resolve it (its regex requires slug before
text) and `sanitizeBrokenPlaceholders` keeps it (both attributes are
present and non-empty). -/
def c1content : String := "x [INTERNAL_LINK text=\"b\" slug=\"a\"] y"

/-- C1: the spec invariant "after repair → quota → resolve → sanitize no
`[INTERNAL_LINK` substring remains" fails on the code: on the swapped
attribute placeholder the whole four-stage pipeline is the identity and the
`[INTERNAL_LINK` token survives into the output. -/
theorem c1_pipeline_leaves_swapped_attr_placeholder :
    sanitizeBrokenPlaceholders (processInternalLinks
        (enforceInternalLinkQuota
          (validateAndRepairInternalLinks c1content c1pages)
          c1pages ("kw") MIN_INTERNAL_LINKS)
        c1pages) = c1content ∧
    subOccurs phLit c1content.data = true := by
  constructor
  · decide
  · decide

/-- Page list for the C3 failing input: a single page whose slug is already
linked by the input content. -/
def c3pages : List Page := [⟨"https://example.com/s", "s", "alpha beta gamma"⟩]

/-- C3 failing input: a valid placeholder for slug `s` plus the body text
containing the page title verbatim. -/
def c3content : String :=
  "<p>[INTERNAL_LINK slug=\"s\" text=\"x\"] alpha beta gamma.</p>"

/-- The output `enforceInternalLinkQuota` produces on the C3 failing input:
a second placeholder for the already-linked slug `s` has been injected. -/
def c3expected : String :=
  "<p>[INTERNAL_LINK slug=\"s\" text=\"x\"] [INTERNAL_LINK slug=\"s\" text=\"alpha beta gamma\"].</p>"

/-- Search key counting placeholders that carry slug `s`. -/
def c3slugKey : List Char := ("slug=\"s\"").data

/-- C3: `enforceInternalLinkQuota` injects a placeholder for a slug that is
already linked in the input: the line-924 regex has no capture groups, so
the `linkedSlugs` set contains only `undefined` and the not-yet-linked
filter never excludes anything.  The input has one `slug="s"` placeholder,
the output two. -/
theorem c3_quota_duplicates_already_linked_slug :
    enforceInternalLinkQuota c3content c3pages ("kw") MIN_INTERNAL_LINKS =
      c3expected ∧
    subCount c3slugKey c3content.data = 1 ∧
    subCount c3slugKey c3expected.data = 2 := by
  refine ⟨by decide, by decide, by decide⟩

/-- Page list for the C7 counterexample. -/
def c7pages : List Page := [⟨"https://ex.com/p", "p", "aaa bbb ccc"⟩]

/-- C7 counterexample input: replacing the invalid inner placeholder by its
anchor text splices with the surrounding characters into a brand-new
well-formed placeholder. -/
def c7content : String :=
  "[INTERNAL_LINK slug=\"[INTERNAL_LINK slug=\"bad\" text=\"x\"]\" text=\"y\"]"

/-- C7 counterexample: `validateAndRepairInternalLinks` is not idempotent.
On `c7content` the first pass yields `[INTERNAL_LINK slug="x" text="y"]`
and the second pass rewrites that to `y`. -/
theorem c7_counterexample_not_idempotent :
    validateAndRepairInternalLinks
        (validateAndRepairInternalLinks c7content c7pages) c7pages ≠
      validateAndRepairInternalLinks c7content c7pages := by
  decide

/-- C7 amended: `validateAndRepairInternalLinks` is idempotent on content
in which every `[` begins a complete placeholder
`[INTERNAL_LINK slug="S" text="T"]` whose slug and anchor text are
non-empty and free of `[` and `"`, provided every available page's slug is
free of `[` and `"` — the segments between placeholders, the attribute
values, and the page slugs then cannot splice into new placeholders, and
every placeholder the first pass keeps or forges carries a known slug that
the second pass keeps unchanged. -/
theorem c7_repair_idempotent_amended (pages : List Page) (s0 : String)
    (parts : List (String × String × String))
    (hs0 : cleanChars s0.data = true)
    (hparts : ∀ x ∈ parts, cleanAttr x.1.data = true ∧
      cleanAttr x.2.1.data = true ∧ cleanChars x.2.2.data = true)
    (hpages : ∀ p ∈ pages, cleanChars p.slug.data = true ∧
      (p.slug.data.all (fun c => c ≠ '"')) = true) :
    validateAndRepairInternalLinks
        (validateAndRepairInternalLinks (strChunks s0 parts) pages) pages =
      validateAndRepairInternalLinks (strChunks s0 parts) pages := by
  by_cases hpe : pages.isEmpty
  · simp [validateAndRepairInternalLinks, hpe]
  · by_cases hc : strChunks s0 parts = String.mk []
    · rw [hc]
      simp [validateAndRepairInternalLinks]
    · have h1 : validateAndRepairInternalLinks (strChunks s0 parts) pages =
          String.mk (replacePH (repairPH pages) (strChunks s0 parts).data) := by
        simp [validateAndRepairInternalLinks, hc, hpe]
      have hmain : replacePH (repairPH pages)
          (replacePH (repairPH pages) (strChunks s0 parts).data) =
          replacePH (repairPH pages) (strChunks s0 parts).data := by
        have hpages' : ∀ p ∈ pages, (∀ x ∈ p.slug.data, x ≠ '[') ∧
            (∀ x ∈ p.slug.data, x ≠ '"') := by
          intro p hp
          have h := hpages p hp
          constructor
          · intro x hx
            have := h.1
            simp only [cleanChars, List.all_eq_true, decide_eq_true_eq] at this
            exact this x hx
          · intro x hx
            have := h.2
            simp only [List.all_eq_true, decide_eq_true_eq] at this
            exact this x hx
        have hparts' : ∀ x ∈ parts.map
            (fun x => (x.1.data, x.2.1.data, x.2.2.data)),
            cleanAttr x.1 = true ∧ cleanAttr x.2.1 = true ∧
              cleanChars x.2.2 = true := by
          intro x hx
          rw [List.mem_map] at hx
          obtain ⟨y, hy, rfl⟩ := hx
          exact hparts y hy
        exact replacePH_repair_idem pages hpages'
          (parts.map (fun x => (x.1.data, x.2.1.data, x.2.2.data)))
          s0.data hs0 hparts'
      rw [h1]
      by_cases ho : String.mk (replacePH (repairPH pages)
          (strChunks s0 parts).data) = String.mk []
      · rw [ho]
        simp [validateAndRepairInternalLinks]
      · rw [show validateAndRepairInternalLinks
            (String.mk (replacePH (repairPH pages) (strChunks s0 parts).data))
            pages =
            String.mk (replacePH (repairPH pages)
              (String.mk (replacePH (repairPH pages)
                (strChunks s0 parts).data)).data) from by
          simp [validateAndRepairInternalLinks, ho, hpe]]
        exact congrArg String.mk hmain

/-- Page list for the C7 amended witness. -/
def c7wPages : List Page := [⟨"https://ex.com/a", "a", "tt"⟩]

/-- C7 amended witness: a concrete chunked content (one placeholder with a
known slug between clean segments) on which the repair pass is verified
idempotent by the amended theorem. -/
theorem c7_repair_idempotent_amended_witness :
    validateAndRepairInternalLinks
        (validateAndRepairInternalLinks
          (strChunks ("Intro ") [("a", "anchor text", " tail")]) c7wPages)
        c7wPages =
      validateAndRepairInternalLinks
        (strChunks ("Intro ") [("a", "anchor text", " tail")]) c7wPages :=
  c7_repair_idempotent_amended c7wPages ("Intro ")
    [("a", "anchor text", " tail")] (by decide) (by decide) (by decide)

/-- C9: with an empty `availablePages` list, both
`validateAndRepairInternalLinks` (guard at src/index.tsx:833) and
`processInternalLinks` (guard at src/index.tsx:1010) return the content
unchanged, for every content string: no repair, removal or degradation
happens without a page inventory. -/
theorem c9_empty_pages_identity (content : String) :
    validateAndRepairInternalLinks content [] = content ∧
    processInternalLinks content [] = content := by
  constructor <;>
    simp [validateAndRepairInternalLinks, processInternalLinks, List.isEmpty]

/-- C6: cache TTL semantics.  After `set key v` at time `T`, a `get` at
time `Tq` returns the value exactly while `Tq - T < 3600000` and reports a
miss afterwards, while the entry itself stays in the map (lazy expiry:
`get` never mutates the store). -/
theorem c6_cache_ttl {α : Type} (c : ContentCache α) (key : String) (v : α)
    (T Tq : Int) :
    (Tq - T < 3600000 →
      cacheGet (cacheSet c key v T) key Tq = some v) ∧
    (3600000 ≤ Tq - T →
      cacheGet (cacheSet c key v T) key Tq = none) ∧
    cacheLookup (cacheSet c key v T) key = some ⟨v, T⟩ := by
  refine ⟨?_, ?_, ?_⟩
  · intro h
    simp [cacheGet, cacheLookup, cacheSet, cacheTTL, h]
  · intro h
    simp [cacheGet, cacheLookup, cacheSet, cacheTTL]
    omega
  · simp [cacheLookup, cacheSet]

/-- C6 witness: a value set at time 0 is returned at time 1000 and treated
as a miss at time 3600001 (one millisecond past the TTL). -/
theorem c6_cache_ttl_witness :
    cacheGet (cacheSet (⟨[]⟩ : ContentCache Nat) ("k") 42 0) ("k") 1000 =
      some 42 ∧
    cacheGet (cacheSet (⟨[]⟩ : ContentCache Nat) ("k") 42 0) ("k") 3600001 =
      none :=
  ⟨(c6_cache_ttl ⟨[]⟩ ("k") 42 0 1000).1 (by decide),
   (c6_cache_ttl ⟨[]⟩ ("k") 42 0 3600001).2.1 (by decide)⟩

/-- C4: fail-fast classification of `callAiWithRetry`.  For any
`maxRetries ≥ 1`, if the first invocation fails with an HTTP status in
[400, 500) other than 429, or with a message containing a context-length /
token-limit indication or the invalid-API-key marker, the error is raised
immediately and the call is never invoked a second time. -/
theorem c4_retry_fail_fast {α : Type} (outcomes : Nat → Except AiErr α)
    (maxRetries : Nat) (e : AiErr) (hmr : 1 ≤ maxRetries)
    (hfirst : outcomes 0 = .error e)
    (hclass : (∃ s, e.status = some s ∧ 400 ≤ s ∧ s < 500 ∧ s ≠ 429) ∨
      isCtxLenErr e = true ∨ isBadKeyErr e = true) :
    callAiWithRetry outcomes maxRetries = (.error e, 1) := by
  have hb : (isNonRetriableClient e || isCtxLenErr e || isBadKeyErr e) = true := by
    rcases hclass with ⟨s, hs, h4, h5, h9⟩ | h | h
    · have hsc : statusCodeOf e = some s := by
        have hne : s ≠ 0 := by omega
        simp [statusCodeOf, hs, hne]
      simp [isNonRetriableClient, hsc, h4, h5, h9]
    · simp [h]
    · simp [h]
  obtain ⟨n, rfl⟩ : ∃ n, maxRetries = n + 1 := ⟨maxRetries - 1, by omega⟩
  simp only [callAiWithRetry, callAiGo, hfirst]
  simp [hb]

/-- C4 witness: a 401 error on the first attempt with `maxRetries = 5` is
raised at once with exactly one invocation. -/
theorem c4_retry_fail_fast_witness :
    callAiWithRetry
        (fun _ => (Except.error ⟨some 401, "Unauthorized"⟩ : Except AiErr Nat))
        5 =
      (Except.error ⟨some 401, "Unauthorized"⟩, 1) :=
  c4_retry_fail_fast _ 5 ⟨some 401, "Unauthorized"⟩ (by decide) rfl
    (Or.inl ⟨401, rfl, by decide, by decide, by decide⟩)

/-- C8: the finalize-stage word-count gate.  For non-empty assembled
content, a tag-stripped whitespace-token count below the stage minimum
(2200 standard, 3500 pillar) raises `ContentTooShortError` carrying the
generated content (with the appended schema markup, src/index.tsx:4508) and
the measured count; a count at or above the minimum passes, and in
particular a count above the stage maximum only warns and does not fail. -/
theorem c8_word_count_gate (content schemaMarkup : String) (isPillar : Bool)
    (hne : content ≠ "") :
    (jsWordCount content < stageMinWords isPillar →
      finalizeWordGate content isPillar schemaMarkup =
        .error ⟨"Content is too short (" ++ toString (jsWordCount content) ++
          " words). Target: " ++ toString (stageMinWords isPillar) ++ "-" ++
          toString (stageMaxWords isPillar) ++ ".",
          content ++ schemaMarkup, jsWordCount content⟩) ∧
    (stageMinWords isPillar ≤ jsWordCount content →
      finalizeWordGate content isPillar schemaMarkup =
        .ok (jsWordCount content)) ∧
    (stageMaxWords isPillar < jsWordCount content →
      finalizeWordGate content isPillar schemaMarkup =
        .ok (jsWordCount content)) := by
  have hmk : ¬ content = String.mk [] := hne
  refine ⟨?_, ?_, ?_⟩
  · intro h
    simp [finalizeWordGate, enforceWordCount, hmk, h]
  · intro h
    simp [finalizeWordGate, enforceWordCount, hmk]
    omega
  · intro h
    have h2 : stageMinWords isPillar ≤ jsWordCount content := by
      cases isPillar <;>
        simp_all [stageMinWords, stageMaxWords, TARGET_MIN_WORDS,
          TARGET_MAX_WORDS, TARGET_MIN_WORDS_PILLAR, TARGET_MAX_WORDS_PILLAR] <;>
        omega
    simp [finalizeWordGate, enforceWordCount, hmk]
    omega

/-- C8 witness: eleven characters of content count two words, which is
below the standard minimum of 2200, so the gate throws the recoverable
error preserving the content and the count; a concrete passing case is not
needed since the hypothesis is discharged on the failing side. -/
theorem c8_word_count_gate_witness :
    finalizeWordGate ("hello world") false ("<sc>") =
      .error ⟨"Content is too short (2 words). Target: 2200-2800.",
        "hello world" ++ "<sc>", 2⟩ := by
  have h := (c8_word_count_gate ("hello world") ("<sc>") false
    (by decide)).1 (by decide)
  rw [h]
  decide

/-- C10 counterexample: the line-43 guard of `enforceWordCount` is
reachable — the empty string is falsy, so `enforceWordCount('')` throws
`ContentTooShortError("Content is undefined or not a string", "", 0)`,
refuting the claim that the guard is unreachable for every input. -/
theorem c10_counterexample_empty_string_guard :
    enforceWordCountJs (.str ("")) 2500 3000 =
      .error (.tooShort ⟨"Content is undefined or not a string", "", 0⟩) := by
  decide

/-- C10 amended: for every primitive non-string content value,
`enforceWordCount` throws a `TypeError` from the initial `content.replace`
call, before its guard; the `ContentTooShortError` guard is reachable
exactly for the empty string — every non-empty string passes through and
returns its word count. -/
theorem c10_enforce_word_count_classification (v : JsVal)
    (minWords maxWords : Nat) :
    (v.isStr = false →
      enforceWordCountJs v minWords maxWords = .error .typeErr) ∧
    (enforceWordCountJs (.str (String.mk [])) minWords maxWords =
      .error (.tooShort ⟨"Content is undefined or not a string",
        String.mk [], 0⟩)) ∧
    (∀ s : String, s ≠ "" →
      enforceWordCountJs (.str s) minWords maxWords =
        .ok (jsWordCount s)) := by
  refine ⟨?_, ?_, ?_⟩
  · intro h
    cases v <;> simp_all [JsVal.isStr, enforceWordCountJs]
  · simp [enforceWordCountJs, enforceWordCount]
  · intro s hs
    have hmk : ¬ s = String.mk [] := hs
    simp [enforceWordCountJs, enforceWordCount, hmk]

/-- C10 amended witness: a number throws `TypeError`; the two-word string
returns its count of 2. -/
theorem c10_enforce_word_count_classification_witness :
    enforceWordCountJs (.num 3) 2500 3000 = .error .typeErr ∧
    enforceWordCountJs (.str ("hello world")) 2500 3000 = .ok 2 := by
  refine ⟨(c10_enforce_word_count_classification (.num 3) 2500 3000).1 rfl, ?_⟩
  have h := (c10_enforce_word_count_classification (.num 3) 2500 3000).2.2
    ("hello world") (by decide)
  rw [h]
  decide


/-- C2: `extractJson` applied to the exact truncated input
`'\x7b"a":1,"b":[1,2'` does not return a parseable string: the auto-close
step of src/index.tsx:307-311 appends only copies of the outer bracket
type (`endChar.repeat(balance)`), so the candidate becomes
`\x7b"a":1,"b":[1,2\x7d`, which `JSON.parse` rejects (the inner array is
never closed), and the function throws after all repair attempts — the
claim that the missing closing brackets are synthesized into a parseable
string is refuted on its own example input. -/
theorem c2_extract_json_truncated_mid_array_fails :
    extractJson ("\x7b\"a\":1,\"b\":[1,2") =
      .error "Unable to parse JSON from AI response after multiple repair attempts." ∧
    scanCandidate '{' (("\"a\":1,\"b\":[1,2").data) =
      ("\x7b\"a\":1,\"b\":[1,2\x7d").data ∧
    jsonParse ("\x7b\"a\":1,\"b\":[1,2\x7d") = none :=
  ⟨rfl, rfl, rfl⟩

/-- C5 counterexample: the bare number `5` is a valid JSON string, but
wrapped in prose and a code fence `extractJson` throws "No JSON
object/array found" — line 268 of src/index.tsx only searches for `\x7b`
or `[`, so the round-trip fails for non-object, non-array JSON values. -/
theorem c5_counterexample_bare_number :
    jsonParse ("5") = some (.num ("5")) ∧
    extractJson ("Here is it: ```json\n5\n```") =
      .error "No JSON object/array found. Ensure your prompt requests JSON output only without markdown." :=
  ⟨rfl, rfl⟩

/-- C5 (amended): the `extractJson` round-trip holds for object-valued
JSON.  If `J` parses as a JSON object with nothing left over, the whole
wrapped text is not itself valid JSON, the fence-cleaning phase reduces
the text to `pre2 ++ J ++ post2` with `J` intact, and the remaining
leading prose `pre2` contains no `\x7b` and no `[`, then `extractJson`
returns exactly `J`, which parses to the same value `v`.  The scan starts
at the first `\x7b`, passes transparently through the object body, and
stops at its balanced closing brace. -/
theorem c5_extractJson_roundtrip_amended
    (pre J post : String) (v : Json) (cs0 pre2 post2 : List Char)
    (hJ : J.data = '{' :: cs0)
    (h2 : parseVal (J.length + 1) J.data = some (v, []))
    (h3 : jsonParse (pre ++ J ++ post) = none)
    (h4 : cleanTextModel (pre ++ J ++ post).data = pre2 ++ (J.data ++ post2))
    (h5 : '{' ∉ pre2)
    (h6 : '[' ∉ pre2) :
    extractJson (pre ++ J ++ post) = .ok J ∧ jsonParse J = some v := by
  have hPJ : jsonParse J = some v := by
    unfold jsonParse
    have hskip : skipJsonWs J.data = J.data := by
      rw [hJ]
      unfold skipJsonWs
      rw [List.dropWhile_cons, if_neg (by decide)]
    rw [hskip, h2]
    simp [skipJsonWs]
  refine ⟨?_, hPJ⟩
  have htext : (pre ++ J ++ post).data = pre.data ++ (J.data ++ post.data) := by
    simp [String.data_append]
  have hmem : '{' ∈ (pre ++ J ++ post).data := by
    rw [htext, hJ]
    simp
  have htrim : ¬ jsTrim (pre ++ J ++ post).data = [] :=
    jsTrim_ne_nil hmem (by decide)
  have hns : ¬ ((jsonParse (pre ++ J ++ post)).isSome = true) := by
    rw [h3]
    simp
  obtain ⟨t, ht, hsc⟩ := scanTop (hJ ▸ h2)
  have htt : cs0 = t := by simpa using ht
  subst htt
  have hPJ2 : jsonParse (String.mk ('{' :: cs0)) = some v := by
    rw [show ('{' :: cs0 : List Char) = J.data from hJ.symm, strMk_data]
    exact hPJ
  have hext : extractFrom (pre2 ++ '{' :: (cs0 ++ post2)) pre2.length
      = .ok J := by
    unfold extractFrom
    have hdrop : (pre2 ++ '{' :: (cs0 ++ post2)).drop pre2.length
        = '{' :: (cs0 ++ post2) := List.drop_left pre2 _
    rw [hdrop]
    show finishCandidate (scanCandidate '{' (cs0 ++ post2)) = .ok J
    unfold scanCandidate
    rw [show (if ('{' : Char) = '{' then '}' else ']') = '}' from if_pos rfl,
      hsc post2]
    show finishCandidate ('{' :: cs0) = .ok J
    unfold finishCandidate
    rw [hPJ2]
    simp only [Option.isSome_some, if_true]
    rw [show ('{' :: cs0 : List Char) = J.data from hJ.symm, strMk_data]
  have hnone1 : List.findIdx? (fun c => decide (c = '{')) pre2 = none :=
    List.findIdx?_eq_none_iff.mpr (fun x hx => by
      simp only [decide_eq_false_iff_not]
      intro hxe
      exact h5 (hxe ▸ hx))
  have hnone2 : List.findIdx? (fun c => decide (c = '[')) pre2 = none :=
    List.findIdx?_eq_none_iff.mpr (fun x hx => by
      simp only [decide_eq_false_iff_not]
      intro hxe
      exact h6 (hxe ▸ hx))
  have hfind1 : List.findIdx? (fun c => decide (c = '{'))
      (pre2 ++ '{' :: (cs0 ++ post2)) = some pre2.length := by
    rw [List.findIdx?_append, hnone1, Option.none_or, List.findIdx?_cons]
    simp
  have hqlow : ∀ j, List.findIdx? (fun c => decide (c = '['))
      (pre2 ++ '{' :: (cs0 ++ post2)) = some j → pre2.length < j := by
    intro j hq
    rw [List.findIdx?_append, hnone2, Option.none_or] at hq
    cases hk : List.findIdx? (fun c => decide (c = '['))
        ('{' :: (cs0 ++ post2)) with
    | none => rw [hk] at hq; simp at hq
    | some k =>
      rw [hk] at hq
      simp only [Option.map_some', Option.some.injEq] at hq
      have hk0 : k ≠ 0 := by
        intro h0
        subst h0
        rw [List.findIdx?_eq_some_iff_getElem] at hk
        obtain ⟨hlt, hp, _⟩ := hk
        simp at hp
      omega
  unfold extractJson
  rw [if_neg htrim, if_neg hns, h4, hJ]
  rw [show (('{' :: cs0 : List Char) ++ post2) = '{' :: (cs0 ++ post2) from rfl]
  cases hq : List.findIdx? (fun c => decide (c = '['))
      (pre2 ++ '{' :: (cs0 ++ post2)) with
  | none =>
    rw [hfind1]
    exact hext
  | some j =>
    rw [hfind1]
    show extractFrom (pre2 ++ '{' :: (cs0 ++ post2)) (min pre2.length j)
      = .ok J
    rw [Nat.min_eq_left (Nat.le_of_lt (hqlow j hq))]
    exact hext

/-- Wrapping prose ahead of the witness JSON object. -/
def c5wPre : String := "Here is the JSON:\n```json\n"

/-- The witness JSON object. -/
def c5wJ : String := "\x7b\"a\": 1, \"b\": [true, null]\x7d"

/-- Wrapping prose after the witness JSON object. -/
def c5wPost : String := "\n``` Done"

/-- Parsed value of the witness object. -/
def c5wVal : Json :=
  .obj [("a", .num ("1")), ("b", .arr [.bool true, .null])]

/-- C5 amended witness: a concrete object wrapped in prose and a
```json fence is extracted verbatim and parses to its value. -/
theorem c5_extractJson_roundtrip_amended_witness :
    extractJson (c5wPre ++ c5wJ ++ c5wPost) = .ok c5wJ ∧
    jsonParse c5wJ = some c5wVal :=
  c5_extractJson_roundtrip_amended c5wPre c5wJ c5wPost c5wVal
    (("\"a\": 1, \"b\": [true, null]\x7d").data)
    (("Here is the JSON:\n").data) (("\nDone").data)
    (by rfl) (by rfl) (by rfl) (by rfl) (by decide) (by decide)

end ContentOpt
